import Mathlib

/-!
Verification of the schema-diff engine and operation renderer of this
repository (alembic autogenerate fork).

The definitions below are a shallow embedding of
`alembic/autogenerate/compare.py` (diff engine) and `alembic/autogenerate.py`
(driver and renderer).  Python sets that the source iterates are modelled as
insertion-ordered duplicate-free lists; Python dicts keyed by name are
modelled as association lists with last-binding-wins lookup, matching the
`dict((k, v) for ...)` comprehensions of the source.  Plain-set iteration
order in Python is implementation-defined (hash-based); wherever no stated
property depends on such an order, the element-order convention above is
harmless, and the one iteration whose order a property does touch — the
removed-table loop of `_compare_tables` — instead carries an explicit
enumeration parameter (`compareTablesEnum`), so that every admissible
iteration order is covered.
-/

/-- A single quote character, used by the Python `repr` of strings. -/
def squo : String := "\x27"

/-- Python `str.upper()` for the ASCII identifiers arising here. -/
def upcase (s : String) : String := String.mk (s.data.map Char.toUpper)

/-- Whether `t` is a prefix of `s` (`str.startswith`). -/
def strStarts (s t : String) : Bool := t.data.isPrefixOf s.data

/-- Whether `t` is a suffix of `s` (`str.endswith`). -/
def strEnds (s t : String) : Bool := t.data.reverse.isPrefixOf s.data.reverse

/-- Drop the first `n` characters of a string. -/
def strDrop (s : String) (n : Nat) : String := String.mk (s.data.drop n)

/-- Drop the last `n` characters of a string. -/
def strDropRight (s : String) (n : Nat) : String := String.mk ((s.data.reverse.drop n).reverse)

/-- Code-point lexicographic strict order on character lists. -/
def charListLt : List Char → List Char → Bool
  | [], [] => false
  | [], _ :: _ => true
  | _ :: _, [] => false
  | a :: as, b :: bs => if a < b then true else if b < a then false else charListLt as bs

/-- Python string `<` (code-point lexicographic). -/
def strLt (a b : String) : Bool := charListLt a.data b.data

/-- Python string `<=`. -/
def strLe (a b : String) : Bool := strLt a b || a == b

/-- Splitting a string at newline characters, accumulator-style. -/
def splitLinesAux : List Char → List Char → List String
  | [], acc => [String.mk acc.reverse]
  | c :: cs, acc =>
    if c = Char.ofNat 10 then String.mk acc.reverse :: splitLinesAux cs []
    else splitLinesAux cs (c :: acc)

/-- The lines of a string (`str.split` at newlines, keeping empty lines). -/
def splitLines (s : String) : List String := splitLinesAux s.data []

/-- Python whitespace for `str.strip()`. -/
def isWsp (c : Char) : Bool :=
  c = Char.ofNat 32 ∨ c = Char.ofNat 10 ∨ c = Char.ofNat 9 ∨ c = Char.ofNat 13

/-- Python `str.strip()`: remove leading and trailing whitespace. -/
def trimString (s : String) : String :=
  String.mk (((s.data.dropWhile isWsp).reverse.dropWhile isWsp).reverse)

/-- A SQL type descriptor.  `className` is `t.__class__.__name__`,
`reprStr` is Python `repr(t)`; `length`, `precision` and `scale` are the
attributes read by `_get_type`; `nullAffinity` models
`t._type_affinity is sqltypes.NullType`. -/
structure SqlType where
  className : String
  reprStr : String
  length : Nat := 0
  precision : Nat := 0
  scale : Nat := 0
  nullAffinity : Bool := false
deriving DecidableEq

/-- A column record: name, type, nullable flag, server default (the textual
default argument, `none` for Python `None`) and the autoincrement flag. -/
structure Column where
  name : String
  type : SqlType
  nullable : Bool
  default : Option String := none
  autoincrement : Bool := true
deriving DecidableEq

/-- An index record as carried by `_make_index` / `metadata_table.indexes`:
name, owning table name, uniqueness flag and ordered column-name list. -/
structure IndexDef where
  name : String
  table : String := ""
  unique : Bool
  columnNames : List String
deriving DecidableEq

/-- A unique-constraint record: optional name (anonymous constraints carry
`none`) and ordered column-name list. -/
structure UniqueDef where
  name : Option String
  columnNames : List String
deriving DecidableEq

/-- A table snapshot: identity `(schema, name)`, ordered columns, indexes,
named unique constraints, the names of tables referenced by its foreign
keys, and the reference-only flag `__mapping_only__`. -/
structure Table where
  schema : Option String := none
  name : String
  columns : List Column
  indexes : List IndexDef := []
  uniques : List UniqueDef := []
  fkRefs : List String := []
  mappingOnly : Bool := false
deriving DecidableEq

/-- Table identity used by `_compare_tables`: the `(s, tname)` pair. -/
abbrev TableKey := Option String × String

/-- `tableKey t` is the `(schema, name)` identity of `t`. -/
def tableKey (t : Table) : TableKey := (t.schema, t.name)

/-- One `modify_*` sub-change tuple, as appended by `_compare_type`,
`_compare_nullable` and `_compare_server_default`: the tuple positions are
(kind, schema, tname, cname, diff_kw, old value, new value). -/
inductive SubModify where
  | modifyType (schema : Option String) (tname cname : String)
      (existingNullable : Bool) (existingDefault : Option String)
      (oldType newType : SqlType)
  | modifyNullable (schema : Option String) (tname cname : String)
      (existingType : SqlType) (existingDefault : Option String)
      (oldNullable newNullable : Bool)
  | modifyDefault (schema : Option String) (tname cname : String)
      (existingNullable : Bool) (existingType : SqlType)
      (oldDefault newDefault : Option String)
deriving DecidableEq

/-- The column name a sub-change concerns (tuple position 3). -/
def subCname : SubModify → String
  | .modifyType _ _ c _ _ _ _ => c
  | .modifyNullable _ _ c _ _ _ _ => c
  | .modifyDefault _ _ c _ _ _ _ => c

/-- The schema a sub-change concerns (tuple position 1). -/
def subSchema : SubModify → Option String
  | .modifyType s _ _ _ _ _ _ => s
  | .modifyNullable s _ _ _ _ _ _ => s
  | .modifyDefault s _ _ _ _ _ _ => s

/-- The table name a sub-change concerns (tuple position 2). -/
def subTname : SubModify → String
  | .modifyType _ t _ _ _ _ _ => t
  | .modifyNullable _ t _ _ _ _ _ => t
  | .modifyDefault _ t _ _ _ _ _ => t

/-- One change entry of the diff list.  Add/remove entries are the tagged
tuples of the source; a `modify` entry is the `col_diff` list appended as a
single compound element (a Python `list`, not `tuple`). -/
inductive Change where
  | addTable (t : Table)
  | removeTable (t : Table)
  | addColumn (schema : Option String) (tname : String) (col : Column)
  | removeColumn (schema : Option String) (tname : String) (col : Column)
  | modify (subs : List SubModify)
  | addIndex (i : IndexDef)
  | removeIndex (i : IndexDef)
  | addConstraint (u : UniqueDef)
  | removeConstraint (u : UniqueDef)
deriving DecidableEq

/-- Argument record handed to each predicate of the object-filter chain
(`_run_filters`): name, kind, `reflected` flag and whether a counterpart
object (`compare_to`) is present. -/
structure FilterQuery where
  name : String
  kind : String
  reflected : Bool
  hasCompareTo : Bool

/-- One object-filter predicate of the chain. -/
abbrev ObjFilter := FilterQuery → Bool

/-- `_run_filters`: an object passes only if every predicate accepts it. -/
def runFilters (fs : List ObjFilter) (q : FilterQuery) : Bool :=
  fs.all (fun f => f q)

/-- `_get_type`: the normalized textual signature of a type.  Branches on
the upper-cased class name exactly as the source does, else falls back to
`repr(t)`. -/
def getType (t : SqlType) : String :=
  let name := t.className
  if upcase name = "VARCHAR" then
    name ++ "(length=" ++ toString t.length ++ ")"
  else if upcase name = "CHAR" then
    name ++ "(length=" ++ toString t.length ++ ")"
  else if upcase name = "DECIMAL" then
    "Numeric(precision=" ++ toString t.precision ++ ", scale=" ++ toString t.scale ++ ")"
  else if upcase name = "PICKLETYPE" then
    "BLOB()"
  else if upcase name = "INTEGER" then
    "INTEGER()"
  else
    t.reprStr

/-- `_compare`: whether two type descriptors differ.  Boolean-affinity and
MEDIUMTEXT signatures are treated as never different. -/
def compareTy (c1 c2 : SqlType) : Bool :=
  let r1 := getType c1
  let r2 := getType c2
  if upcase r1 = "BOOLEAN()" ∨ upcase r2 = "BOOLEAN()" then false
  else if upcase r1 = "MEDIUMTEXT()" then false
  else decide (upcase r1 ≠ upcase r2)

/-- The `re.sub(r"^'|'$", "", default)` quote stripping of
`_render_server_default`. -/
def stripOuterQuotes (s : String) : String :=
  let s1 := if strStarts s squo then strDrop s 1 else s
  if strEnds s1 squo then strDropRight s1 1 else s1

/-- `_render_server_default` for a default value (Python `None` or a
string): strings are quote-stripped and `repr`-quoted, `None` renders to
`None` (the caller-supplied `render_item` hook is not configured). -/
def renderServerDefault (d : Option String) : Option String :=
  match d with
  | none => none
  | some s => some (squo ++ stripOuterQuotes s ++ squo)

/-- `_compare_type` of `compare.py`: the sub-changes it appends to
`col_diff` for one matched column.  Null type affinity on either side
short-circuits with no entry; a reference-only table suppresses the
entry. -/
def compareTypeSub (schema : Option String) (tname cname : String)
    (connCol metaCol : Column) (mappingOnly : Bool) : List SubModify :=
  if connCol.type.nullAffinity then []
  else if metaCol.type.nullAffinity then []
  else if compareTy connCol.type metaCol.type then
    if ¬ mappingOnly then
      [.modifyType schema tname cname connCol.nullable connCol.default
        connCol.type metaCol.type]
    else []
  else []

/-- `_compare_nullable` of `compare.py`: the sub-changes it appends to
`col_diff` for one matched column. -/
def compareNullableSub (schema : Option String) (tname cname : String)
    (connCol metaCol : Column) (mappingOnly : Bool) : List SubModify :=
  if ¬ mappingOnly then
    if connCol.nullable ≠ metaCol.nullable then
      [.modifyNullable schema tname cname connCol.type connCol.default
        connCol.nullable metaCol.nullable]
    else []
  else []

/-- `_compare_server_default` of `compare.py`: the sub-changes it appends
to `col_diff`.  Both sides are rendered with `_render_server_default`.
Modelled from the spec: the decision itself is delegated to
`context._compare_server_default` (in `alembic/migration.py`, which is not
under `src/`); per the spec the live default is compared post-rendering and
any difference, including one side being absent, is a change.  The old
value recorded is the rendered live default, the new value the declared
default. -/
def compareDefaultSub (schema : Option String) (tname cname : String)
    (connCol metaCol : Column) (mappingOnly : Bool) : List SubModify :=
  let metaDefault := metaCol.default
  let connDefault := connCol.default
  if connDefault = none ∧ metaDefault = none then []
  else
    let renderedMeta := renderServerDefault metaDefault
    let renderedConn := renderServerDefault connDefault
    if renderedConn ≠ renderedMeta then
      if ¬ mappingOnly then
        [.modifyDefault schema tname cname connCol.nullable connCol.type
          renderedConn metaDefault]
      else []
    else []

/-- The `col_diff` list accumulated for one matched column: type, nullable
and default sub-changes, in the order the source runs the comparators. -/
def colDiffs (schema : Option String) (tname cname : String)
    (connCol metaCol : Column) (mappingOnly : Bool) : List SubModify :=
  compareTypeSub schema tname cname connCol metaCol mappingOnly
    ++ compareNullableSub schema tname cname connCol metaCol mappingOnly
    ++ compareDefaultSub schema tname cname connCol metaCol mappingOnly

/-- Dict-style lookup of a column by name (`dict((c.name, c) for c in ...)`
keeps the last binding, so the reversed list is searched). -/
def colByName (t : Table) (n : String) : Option Column :=
  t.columns.reverse.find? (fun c => c.name = n)

/-- The duplicate-free column-name list of a table, in column order
(the key set of `dict((c.name, c) for c in ...)`). -/
def colNames (t : Table) : List String :=
  (t.columns.map Column.name).dedup

/-- `_compare_columns` of `compare.py`.  Added columns iterate the sorted
desired name set, removed columns the live name set, matched columns the
sorted intersection; each matched column's `col_diff` is appended as one
compound entry when non-empty. -/
def compareColumns (schema : Option String) (tname : String)
    (filters : List ObjFilter) (connTable metaTable : Table) : List Change :=
  let metaNames := colNames metaTable
  let connNames := colNames connTable
  let metaSorted := List.insertionSort (fun a b => strLe a b = true) metaNames
  let adds := (metaSorted.filter (fun c => decide (c ∉ connNames))).filterMap
    (fun cname =>
      match colByName metaTable cname with
      | some c =>
        if runFilters filters ⟨cname, "column", false, false⟩ then
          if ¬ metaTable.mappingOnly then some (.addColumn schema tname c)
          else none
        else none
      | none => none)
  let removes := (connNames.filter (fun c => decide (c ∉ metaNames))).filterMap
    (fun cname =>
      match colByName connTable cname with
      | some c =>
        let remCol : Column :=
          { name := cname, type := c.type, nullable := c.nullable,
            default := c.default }
        if runFilters filters ⟨cname, "column", true, false⟩ then
          if ¬ metaTable.mappingOnly then
            some (.removeColumn schema tname remCol)
          else none
        else none
      | none => none)
  let mods := (metaSorted.filter (fun c => decide (c ∈ connNames))).filterMap
    (fun cname =>
      match colByName metaTable cname, colByName connTable cname with
      | some metaCol, some connCol =>
        if runFilters filters ⟨cname, "column", false, true⟩ then
          match colDiffs schema tname cname connCol metaCol
              metaTable.mappingOnly with
          | [] => none
          | l => some (.modify l)
        else none
      | _, _ => none)
  adds ++ removes ++ mods

/-- The `(name, constraint)` pairs of the named unique constraints of a
list, as built by the `dict((i.name, i) for i in ... if i.name is not None)`
comprehensions. -/
def namedUniques (l : List UniqueDef) : List (String × UniqueDef) :=
  l.filterMap (fun u => u.name.map (fun n => (n, u)))

/-- Last-binding-wins lookup in an association list (Python dict). -/
def lookupLast {α : Type} (l : List (String × α)) (k : String) : Option α :=
  (l.reverse.find? (fun p => p.1 = k)).map (fun p => p.2)

/-- The duplicate-free key list of an association list (Python dict key
set, insertion order). -/
def assocKeys {α : Type} (l : List (String × α)) : List String :=
  (l.map Prod.fst).dedup

/-- `_compare_uniques` of `compare.py`: compares named unique constraints
of the desired table against the live reflected ones and returns the
changes together with the live constraint-name set handed on to
`_compare_indexes` for deduplication.  When the introspection adapter does
not support unique-constraint reflection, nothing is compared and `none` is
returned.  Note: this comparison has no reference-only
(`__mapping_only__`) suppression in the source. -/
def compareUniques (tname : String) (connTable metaTable : Table)
    (uniquesSupported : Bool) : List Change × Option (List String) :=
  if ¬ uniquesSupported then ([], none)
  else
    let m := namedUniques metaTable.uniques
    let c := namedUniques connTable.uniques
    let mKeys := assocKeys m
    let cKeys := assocKeys c
    let adds := (mKeys.filter (fun k => decide (k ∉ cKeys))).filterMap
      (fun k => (lookupLast m k).map Change.addConstraint)
    let removes := (cKeys.filter (fun k => decide (k ∉ mKeys))).filterMap
      (fun k => (lookupLast c k).map Change.removeConstraint)
    let changes := (mKeys.filter (fun k => decide (k ∈ cKeys))).flatMap
      (fun k =>
        match lookupLast m k, lookupLast c k with
        | some mu, some cu =>
          if mu.columnNames ≠ cu.columnNames then
            [.removeConstraint cu, .addConstraint mu]
          else []
        | _, _ => [])
    (adds ++ removes ++ changes, some cKeys)

/-- The `(name, index)` pairs of an index list (dict by name). -/
def indexPairs (l : List IndexDef) : List (String × IndexDef) :=
  l.map (fun i => (i.name, i))

/-- `_compare_indexes` of `compare.py`: the live unique-constraint name set
(or, when unique reflection is unsupported, the desired named
unique-constraint names) is subtracted from both index name-sets before
comparison; an index present on one side is added/removed, and a matched
index whose uniqueness flag or column list differs is replaced by a
remove/add pair.  All entries are suppressed for reference-only tables. -/
def compareIndexes (tname : String) (connTable metaTable : Table)
    (cUniquesKeys : Option (List String)) : List Change :=
  let cPairs := indexPairs connTable.indexes
  let mPairs := indexPairs metaTable.indexes
  let cuniq :=
    match cUniquesKeys with
    | some ks => ks
    | none => (namedUniques metaTable.uniques).map Prod.fst
  let cKeys := (assocKeys cPairs).filter (fun k => decide (k ∉ cuniq))
  let mKeys := (assocKeys mPairs).filter (fun k => decide (k ∉ cuniq))
  let adds := (mKeys.filter (fun k => decide (k ∉ cKeys))).filterMap
    (fun k =>
      if ¬ metaTable.mappingOnly then (lookupLast mPairs k).map Change.addIndex
      else none)
  let removes := (cKeys.filter (fun k => decide (k ∉ mKeys))).filterMap
    (fun k =>
      if ¬ metaTable.mappingOnly then
        (lookupLast cPairs k).map Change.removeIndex
      else none)
  let changes := (mKeys.filter (fun k => decide (k ∈ cKeys))).flatMap
    (fun k =>
      match lookupLast mPairs k, lookupLast cPairs k with
      | some mi, some ci =>
        if mi.unique ≠ ci.unique ∨ mi.columnNames ≠ ci.columnNames then
          if ¬ metaTable.mappingOnly then [.removeIndex ci, .addIndex mi]
          else []
        else []
      | _, _ => [])
  adds ++ removes ++ changes

/-- Lookup of a table by `(schema, name)` key (`metadata.tables[name]`). -/
def findTable (ts : List Table) (k : TableKey) : Option Table :=
  ts.find? (fun t => tableKey t = k)

/-- Ordering of `(schema, name)` pairs used by `sorted(existing_tables)`:
Python sorts tuples lexicographically with `None` below any string. -/
def keyLeB (a b : TableKey) : Bool :=
  match a.1, b.1 with
  | none, none => strLe a.2 b.2
  | none, some _ => true
  | some _, none => false
  | some s1, some s2 => strLt s1 s2 || (s1 == s2 && strLe a.2 b.2)

/-- `_compare_tables` of `compare.py`: tables only in the desired set are
added (through the object-filter chain; the desired side is an `OrderedSet`
built from the dependency-sorted table list, so its difference preserves
that order), tables only in the live set are removed when the
destructive-removal flag is on, and each matched table (sorted by key) is
compared column-, unique-constraint- and index-wise, gated by a
table-level filter call with both sides present.

The `remove_table` loop iterates `conn_table_names.difference(
metadata_table_names)`, a plain Python set whose iteration order is
implementation-defined (hash-based) and in particular is computed from the
`(schema, name)` keys alone, before the removed tables are reflected — it
cannot depend on foreign keys.  That order is modelled by the explicit
enumeration `setEnum`, which receives the difference's elements (in
construction order) and returns the order the loop observes; one program
run corresponds to some enumeration whose output is a permutation of its
input. -/
def compareTablesEnum (setEnum : List TableKey → List TableKey)
    (connKeys metaKeys : List TableKey)
    (connTables metaTables : List Table) (filters : List ObjFilter)
    (removeTables uniquesSupported : Bool) : List Change :=
  let adds := (metaKeys.filter (fun k => decide (k ∉ connKeys))).filterMap
    (fun k =>
      (findTable metaTables k).bind (fun t =>
        if runFilters filters ⟨k.2, "table", false, false⟩ then
          some (.addTable t)
        else none))
  let removes := (setEnum (connKeys.filter
      (fun k => decide (k ∉ metaKeys)))).filterMap
    (fun k =>
      (findTable connTables k).bind (fun t =>
        if removeTables then
          if runFilters filters ⟨k.2, "table", true, false⟩ then
            some (.removeTable t)
          else none
        else none))
  let existing :=
    List.insertionSort (fun a b => keyLeB a b = true) (metaKeys.filter (fun k => decide (k ∈ connKeys)))
  let perTable := existing.flatMap (fun k =>
    match findTable metaTables k, findTable connTables k with
    | some metaTable, some connTable =>
      if runFilters filters ⟨k.2, "table", false, true⟩ then
        let colChanges := compareColumns k.1 k.2 filters connTable metaTable
        let uniqRes := compareUniques k.2 connTable metaTable uniquesSupported
        colChanges ++ uniqRes.1 ++ compareIndexes k.2 connTable metaTable uniqRes.2
      else []
    | _, _ => [])
  adds ++ removes ++ perTable

/-- `_compare_tables` with the set enumeration instantiated to element
order.  Used only where no conclusion depends on the removal iteration
order (an empty or singleton difference set, or properties that hold for
every enumeration); ordering properties of the removal loop are stated
against `compareTablesEnum` directly. -/
def compareTables (connKeys metaKeys : List TableKey)
    (connTables metaTables : List Table) (filters : List ObjFilter)
    (removeTables uniquesSupported : Bool) : List Change :=
  compareTablesEnum (fun l => l) connKeys metaKeys connTables metaTables
    filters removeTables uniquesSupported

/-- `_produce_net_changes` (driver in `autogenerate.py`, single default
schema namespace, no `include_symbol`): the live table-key set is the
introspected names minus `alembic_version`; the desired key set comes from
`metadata.sorted_tables`, so `metaTables` is expected in dependency-sorted
order.  Dispatches to `_compare_tables`; the object-filter plumbing follows
the split engine in `compare.py` (the package glue joining the two is not
under `src/`).  The plain-set removal iteration order is carried by
`setEnum`, as in `compareTablesEnum`. -/
def produceNetChangesEnum (setEnum : List TableKey → List TableKey)
    (connTables metaTables : List Table)
    (filters : List ObjFilter) (removeTables uniquesSupported : Bool) :
    List Change :=
  let connKeys := (connTables.map tableKey).filter
    (fun k => decide (k.2 ≠ "alembic_version"))
  let metaKeys := metaTables.map tableKey
  compareTablesEnum setEnum connKeys metaKeys connTables metaTables filters
    removeTables uniquesSupported

/-- The driver with the set enumeration instantiated to element order;
see `compareTables`. -/
def produceNetChanges (connTables metaTables : List Table)
    (filters : List ObjFilter) (removeTables uniquesSupported : Bool) :
    List Change :=
  produceNetChangesEnum (fun l => l) connTables metaTables filters
    removeTables uniquesSupported

/-- Rendering context: the two module-name prefixes from the options
(`alembic_module_prefix`, `sqlalchemy_module_prefix`). -/
structure AutogenCtx where
  alembicModPre : String := "op."
  sqlaModPre : String := "sa."

/-- Python `repr` of a plain string (inputs carry no quote characters). -/
def pyRepr (s : String) : String := squo ++ s ++ squo

/-- Python `repr` of a boolean. -/
def pyBool (b : Bool) : String := if b then "True" else "False"

/-- Python `"%s" % x` where `x` may be `None`. -/
def optText : Option String → String
  | none => "None"
  | some s => s

/-- `_repr_type`: prefix plus `repr` of the type, with the `PickleType`
special case (dialect-module import accumulation does not arise for the
plain types of this model). -/
def reprType (ctx : AutogenCtx) (t : SqlType) : String :=
  if upcase t.className = "PICKLETYPE" then ctx.sqlaModPre ++ "PickleType()"
  else ctx.sqlaModPre ++ t.reprStr

/-- `_repr_type` applied to a possibly-absent type (the `existing_type`
argument defaults to Python `None`, whose `repr` is `None`). -/
def reprTypeOpt (ctx : AutogenCtx) : Option SqlType → String
  | none => ctx.sqlaModPre ++ "None"
  | some t => reprType ctx t

/-- `_render_column`: column constructor text with `server_default`,
`autoincrement` (only when false) and `nullable` keyword options. -/
def renderColumn (ctx : AutogenCtx) (c : Column) : String :=
  let opts : List (String × String) :=
    (match renderServerDefault c.default with
     | some r => [("server_default", r)]
     | none => [])
    ++ (if ¬ c.autoincrement then [("autoincrement", pyBool c.autoincrement)]
        else [])
    ++ [("nullable", pyBool c.nullable)]
  ctx.sqlaModPre ++ "Column(" ++ pyRepr c.name ++ ", " ++ reprType ctx c.type
    ++ ", "
    ++ String.intercalate ", " (opts.map (fun p => p.1 ++ "=" ++ p.2)) ++ ")"

/-- `_render_foreign_key` within this model's foreign-key data (referenced
table names only). -/
def renderFkConstraint (ctx : AutogenCtx) (ref : String) : String :=
  ctx.sqlaModPre ++ "ForeignKeyConstraint(" ++ pyRepr ref ++ ")"

/-- `_render_unique_constraint`: column list plus `name` option. -/
def renderUnique (ctx : AutogenCtx) (u : UniqueDef) : String :=
  let cols := String.intercalate "," (u.columnNames.map pyRepr)
  let opts :=
    match u.name with
    | some n => ", name=" ++ pyRepr n
    | none => ""
  ctx.sqlaModPre ++ "UniqueConstraint(" ++ cols ++ opts ++ ")"

/-- `_add_table`: `create_table` text with rendered columns followed by the
sorted rendered constraints, then the optional schema keyword. -/
def addTableText (ctx : AutogenCtx) (t : Table) : String :=
  let cols := t.columns.map (renderColumn ctx)
  let cons := List.insertionSort (fun a b => strLe a b = true)
    (t.fkRefs.map (renderFkConstraint ctx) ++ t.uniques.map (renderUnique ctx))
  let base := ctx.alembicModPre ++ "create_table(" ++ pyRepr t.name ++ ",\n"
    ++ String.intercalate ",\n" (cols ++ cons)
  (match t.schema with
   | some s => base ++ ",\nschema=" ++ pyRepr s
   | none => base) ++ "\n)"

/-- `_drop_table`. -/
def dropTableText (ctx : AutogenCtx) (t : Table) : String :=
  let base := ctx.alembicModPre ++ "drop_table(" ++ pyRepr t.name
  (match t.schema with
   | some s => base ++ ", schema=" ++ pyRepr s
   | none => base) ++ ")"

/-- `_add_column`. -/
def addColumnText (ctx : AutogenCtx) (schema : Option String) (tname : String)
    (c : Column) : String :=
  let base := ctx.alembicModPre ++ "add_column(" ++ pyRepr tname ++ ", "
    ++ renderColumn ctx c
  (match schema with
   | some s => base ++ ", schema=" ++ pyRepr s
   | none => base) ++ ")"

/-- `_drop_column`. -/
def dropColumnText (ctx : AutogenCtx) (schema : Option String)
    (tname : String) (c : Column) : String :=
  let base := ctx.alembicModPre ++ "drop_column(" ++ pyRepr tname ++ ", "
    ++ pyRepr c.name
  (match schema with
   | some s => base ++ ", schema=" ++ pyRepr s
   | none => base) ++ ")"

/-- `_add_index` (the source hardcodes the `op.` prefix here). -/
def addIndexText (i : IndexDef) : String :=
  "op.create_index(" ++ pyRepr i.name ++ ", " ++ pyRepr i.table ++ ", ["
    ++ String.intercalate ", " (i.columnNames.map pyRepr) ++ "], unique="
    ++ pyBool i.unique ++ ")"

/-- `_drop_index`. -/
def dropIndexText (i : IndexDef) : String :=
  "op.drop_index(" ++ pyRepr i.name ++ ", " ++ pyRepr i.table ++ ")"

/-- Modelled from the spec: rendering of unique-constraint change entries.
The dispatch table of `_invoke_adddrop_command` predates constraint entries
(`alembic/autogenerate/render.py`, which handles them, is not under
`src/`); per the spec an added constraint renders as a creation instruction
in the apply direction and a removed one as a drop instruction. -/
def addConstraintText (ctx : AutogenCtx) (u : UniqueDef) : String :=
  ctx.alembicModPre ++ "create_unique_constraint("
    ++ optText (u.name.map pyRepr) ++ ")"

/-- Modelled from the spec: drop instruction for a unique constraint; see
`addConstraintText`. -/
def dropConstraintText (ctx : AutogenCtx) (u : UniqueDef) : String :=
  ctx.alembicModPre ++ "drop_constraint(" ++ optText (u.name.map pyRepr) ++ ")"

/-- Rendering direction: the `updown` argument (`upgrade`/`downgrade`). -/
inductive Dir where
  | up
  | down
deriving DecidableEq

/-- A value carried in the old/new positions of a `modify_*` tuple. -/
inductive ModVal where
  | ty (t : SqlType)
  | nul (b : Bool)
  | df (d : Option String)
deriving DecidableEq

/-- The old value of a sub-change (tuple position `diff[-2]`). -/
def subOldVal : SubModify → ModVal
  | .modifyType _ _ _ _ _ o _ => .ty o
  | .modifyNullable _ _ _ _ _ o _ => .nul o
  | .modifyDefault _ _ _ _ _ o _ => .df o

/-- The new value of a sub-change (tuple position `diff[-1]`). -/
def subNewVal : SubModify → ModVal
  | .modifyType _ _ _ _ _ _ n => .ty n
  | .modifyNullable _ _ _ _ _ _ n => .nul n
  | .modifyDefault _ _ _ _ _ _ n => .df n

/-- The `(old_kw, new_kw)` value pair `_invoke_modify_command` assigns for
one sub-change: upgrading assigns `kw[new_kw] = diff[-1]` and
`kw[old_kw] = diff[-2]`; downgrading assigns them the other way round. -/
def usedPair (d : Dir) (s : SubModify) : ModVal × ModVal :=
  match d with
  | .up => (subOldVal s, subNewVal s)
  | .down => (subNewVal s, subOldVal s)

/-- Keyword dictionary accumulated by `_invoke_modify_command` and consumed
by `_modify_col`.  An absent key is `none`; `existingServerDefault` and
`serverDefaultArg` store a present key's value, which may itself be Python
`None`. -/
structure ModifyKw where
  existingType : Option SqlType := none
  existingNullable : Option Bool := none
  existingServerDefault : Option (Option String) := none
  typeArg : Option SqlType := none
  nullableArg : Option Bool := none
  serverDefaultArg : Option (Option String) := none
deriving DecidableEq

/-- Python `dict.setdefault`: keep a present value, else insert. -/
def setDefault {α : Type} (o : Option α) (v : α) : Option α :=
  match o with
  | some x => some x
  | none => some v

/-- Projection of a `ModVal` to a type payload. -/
def ModVal.tyVal : ModVal → Option SqlType
  | .ty t => some t
  | _ => none

/-- Projection of a `ModVal` to a nullable payload. -/
def ModVal.nulVal : ModVal → Option Bool
  | .nul b => some b
  | _ => none

/-- Projection of a `ModVal` to a default payload. -/
def ModVal.dfVal : ModVal → Option (Option String)
  | .df d => some d
  | _ => none

/-- One iteration of the `for diff in args` loop of
`_invoke_modify_command`: `setdefault` the `existing_*` context keys found
in the sub-change's `diff_kw`, then assign the direction-dependent
`(old_kw, new_kw)` pair. -/
def applySub (d : Dir) (kw : ModifyKw) (s : SubModify) : ModifyKw :=
  let pr := usedPair d s
  match s with
  | .modifyType _ _ _ exN exD _ _ =>
    let kw1 := { kw with
      existingNullable := setDefault kw.existingNullable exN,
      existingServerDefault := setDefault kw.existingServerDefault exD }
    { kw1 with typeArg := ModVal.tyVal pr.2,
               existingType := ModVal.tyVal pr.1 }
  | .modifyNullable _ _ _ exT exD _ _ =>
    let kw1 := { kw with
      existingType := setDefault kw.existingType exT,
      existingServerDefault := setDefault kw.existingServerDefault exD }
    { kw1 with nullableArg := ModVal.nulVal pr.2,
               existingNullable := ModVal.nulVal pr.1 }
  | .modifyDefault _ _ _ exN exT _ _ =>
    let kw1 := { kw with
      existingNullable := setDefault kw.existingNullable exN,
      existingType := setDefault kw.existingType exT }
    { kw1 with serverDefaultArg := ModVal.dfVal pr.2,
               existingServerDefault := ModVal.dfVal pr.1 }

/-- The final pops of `_invoke_modify_command`: a changed nullable drops
`existing_nullable`, a changed server default drops
`existing_server_default`. -/
def finalizeKw (kw : ModifyKw) : ModifyKw :=
  let kw1 :=
    if kw.nullableArg ≠ none then { kw with existingNullable := none } else kw
  if kw1.serverDefaultArg ≠ none then { kw1 with existingServerDefault := none }
  else kw1

/-- The keyword dictionary a compound entry produces in direction `d`. -/
def buildModifyKw (d : Dir) (subs : List SubModify) : ModifyKw :=
  finalizeKw (subs.foldl (applySub d) {})

/-- Names of the keyword arguments `_modify_col` can render. -/
inductive ArgName where
  | existingType
  | serverDefault
  | typeArg
  | nullable
  | existingNullable
  | existingServerDefault
  | schemaArg
deriving DecidableEq

/-- The 11-space continuation indent of `_modify_col`. -/
def indent11 : String := "           "

/-- The keyword-argument pieces `_modify_col` renders, in source order:
`existing_type` always, then `server_default`, `type_`, `nullable`,
`existing_nullable`, `existing_server_default` (skipped for falsy values),
and `schema`, each present only when its argument is. -/
def modifyColPieces (ctx : AutogenCtx) (schema : Option String)
    (kw : ModifyKw) : List (ArgName × String) :=
  [(ArgName.existingType, "existing_type=" ++ reprTypeOpt ctx kw.existingType)]
  ++ (match kw.serverDefaultArg with
      | none => []
      | some d =>
        [(ArgName.serverDefault,
          "server_default=" ++ optText (renderServerDefault d))])
  ++ (match kw.typeArg with
      | none => []
      | some t => [(ArgName.typeArg, "type_=" ++ reprType ctx t)])
  ++ (match kw.nullableArg with
      | none => []
      | some b => [(ArgName.nullable, "nullable=" ++ pyBool b)])
  ++ (match kw.existingNullable with
      | none => []
      | some b => [(ArgName.existingNullable, "existing_nullable=" ++ pyBool b)])
  ++ (match kw.existingServerDefault with
      | some (some s) =>
        if s ≠ "" then
          [(ArgName.existingServerDefault,
            "existing_server_default="
              ++ optText (renderServerDefault (some s)))]
        else []
      | _ => [])
  ++ (match schema with
      | some sc => [(ArgName.schemaArg, "schema=" ++ pyRepr sc)]
      | none => [])

/-- `_modify_col`: the `alter_column` instruction text assembled from the
keyword pieces. -/
def modifyColText (ctx : AutogenCtx) (schema : Option String)
    (tname cname : String) (kw : ModifyKw) : String :=
  ctx.alembicModPre ++ "alter_column(" ++ pyRepr tname ++ ", " ++ pyRepr cname
    ++ String.join
      ((modifyColPieces ctx schema kw).map (fun p => ",\n" ++ indent11 ++ p.2))
    ++ ")"

/-- `_invoke_modify_command`: schema, table and column come from the first
sub-change; the keyword dictionary is accumulated over all sub-changes and
finalized, then rendered by `_modify_col`.  (A compound entry is never
empty; on `[]` the Python source would raise, modelled as `""`.) -/
def invokeModifyCommand (ctx : AutogenCtx) (d : Dir)
    (subs : List SubModify) : String :=
  match subs with
  | [] => ""
  | s0 :: rest =>
    modifyColText ctx (subSchema s0) (subTname s0) (subCname s0)
      (buildModifyKw d (s0 :: rest))

/-- `_invoke_adddrop_command`: an add entry renders as a creation when
upgrading and as a removal when downgrading, and vice versa for remove
entries. -/
def invokeAddDropCommand (ctx : AutogenCtx) (d : Dir) (c : Change) : String :=
  match c with
  | .addTable t =>
    if d = .up then addTableText ctx t else dropTableText ctx t
  | .removeTable t =>
    if d = .up then dropTableText ctx t else addTableText ctx t
  | .addColumn s tn col =>
    if d = .up then addColumnText ctx s tn col else dropColumnText ctx s tn col
  | .removeColumn s tn col =>
    if d = .up then dropColumnText ctx s tn col else addColumnText ctx s tn col
  | .addIndex i =>
    if d = .up then addIndexText i else dropIndexText i
  | .removeIndex i =>
    if d = .up then dropIndexText i else addIndexText i
  | .addConstraint u =>
    if d = .up then addConstraintText ctx u else dropConstraintText ctx u
  | .removeConstraint u =>
    if d = .up then dropConstraintText ctx u else addConstraintText ctx u
  | .modify _ => ""

/-- `_invoke_command`: compound (list) entries go to the modify renderer,
tuple entries to the add/drop renderer. -/
def invokeCommand (ctx : AutogenCtx) (d : Dir) (c : Change) : String :=
  match c with
  | .modify subs => invokeModifyCommand ctx d subs
  | other => invokeAddDropCommand ctx d other

/-- `_produce_upgrade_commands`: one rendered instruction per change entry,
in list order; an empty buffer becomes the single no-op `pass`. -/
def produceUpgradeCommands (ctx : AutogenCtx) (diffs : List Change) : String :=
  let buf := diffs.map (invokeCommand ctx .up)
  let buf2 := if buf.isEmpty then ["pass"] else buf
  String.intercalate "\n" buf2

/-- `_produce_downgrade_commands`: the change list is iterated in reverse;
an empty buffer becomes the single no-op `pass`. -/
def produceDowngradeCommands (ctx : AutogenCtx) (diffs : List Change) :
    String :=
  let buf := diffs.reverse.map (invokeCommand ctx .down)
  let buf2 := if buf.isEmpty then ["pass"] else buf
  String.intercalate "\n" buf2

/-- `_indent`: wrap a command block in the fixed begin/end marker lines,
prefix every line with four spaces, and strip surrounding whitespace. -/
def indentBlock (text : String) : String :=
  let t := "### commands auto generated by Alembic - please adjust! ###\n"
    ++ text ++ "\n### end Alembic commands ###"
  trimString (String.intercalate "\n" ((splitLines t).map (fun l => "    " ++ l)))

/-- The table of an `add_table` entry, `none` otherwise. -/
def toAdded : Change → Option Table
  | .addTable t => some t
  | _ => none

/-- The table of a `remove_table` entry, `none` otherwise. -/
def toRemoved : Change → Option Table
  | .removeTable t => some t
  | _ => none

/-- The tables of the `add_table` entries of a change list, in order. -/
def addedTables (cs : List Change) : List Table :=
  cs.filterMap toAdded

/-- The tables of the `remove_table` entries of a change list, in order. -/
def removedTables (cs : List Change) : List Table :=
  cs.filterMap toRemoved

/-- Whether a sub-change is a type change. -/
def subIsTypeChange : SubModify → Bool
  | .modifyType _ _ _ _ _ _ _ => true
  | _ => false

/-- Whether a change entry is a compound column modify mentioning the given
column name. -/
def isModifyFor (cname : String) (c : Change) : Bool :=
  match c with
  | .modify subs => subs.any (fun s => subCname s = cname)
  | _ => false

/-- A compound entry is well-formed when it is non-empty and all its
sub-changes concern one column; non-compound entries are unconstrained. -/
def wellFormedModify : Change → Bool
  | .modify [] => false
  | .modify (s :: rest) => rest.all (fun x => subCname x = subCname s)
  | _ => true

/-- The index name an index-level change entry concerns, if any. -/
def indexNameOf : Change → Option String
  | .addIndex i => some i.name
  | .removeIndex i => some i.name
  | _ => none

/-- The live unique-constraint name set of a table (named ones only). -/
def connUniqueNames (t : Table) : List String :=
  assocKeys (namedUniques t.uniques)

/-- Whether a compound entry contains a nullable sub-change. -/
def hasNullableChange (subs : List SubModify) : Bool :=
  subs.any (fun s =>
    match s with
    | .modifyNullable _ _ _ _ _ _ _ => true
    | _ => false)

/-- Whether a compound entry contains a server-default sub-change. -/
def hasDefaultChange (subs : List SubModify) : Bool :=
  subs.any (fun s =>
    match s with
    | .modifyDefault _ _ _ _ _ _ _ => true
    | _ => false)

/-- Topological order over the foreign-key graph: no table is followed by a
table it references, i.e. parents precede children. -/
def topoOrdered (l : List Table) : Prop :=
  l.Pairwise (fun a b => b.name ∉ a.fkRefs)

/-- Reverse topological order: no table is followed by a table referencing
it, i.e. children precede parents. -/
def revTopoOrdered (l : List Table) : Prop :=
  l.Pairwise (fun a b => a.name ∉ b.fkRefs)

/-- Integer type descriptor (`Integer()`). -/
def tInteger : SqlType := { className := "Integer", reprStr := "Integer()" }

/-- `String(50)` type descriptor. -/
def tString50 : SqlType :=
  { className := "String", reprStr := "String(length=50)", length := 50 }

/-- `String(100)` type descriptor. -/
def tString100 : SqlType :=
  { className := "String", reprStr := "String(length=100)", length := 100 }

/-- `Text()` type descriptor. -/
def tText : SqlType := { className := "Text", reprStr := "Text()" }

/-- `Numeric(p, s)` type descriptor. -/
def tNumeric (p s : Nat) : SqlType :=
  { className := "Numeric",
    reprStr := "Numeric(precision=" ++ toString p ++ ", scale="
      ++ toString s ++ ")",
    precision := p, scale := s }

/-- Length-less `CHAR` type descriptor. -/
def tChar : SqlType := { className := "CHAR", reprStr := "CHAR()" }

/-- Example scenario, live side: `user(id, name, a1, pw)`. -/
def liveUser : Table :=
  { name := "user", columns :=
    [ { name := "id", type := tInteger, nullable := false },
      { name := "name", type := tString50, nullable := true },
      { name := "a1", type := tText, nullable := true },
      { name := "pw", type := tString50, nullable := true } ] }

/-- Example scenario, live side: `address(id, email)`. -/
def liveAddress : Table :=
  { name := "address", columns :=
    [ { name := "id", type := tInteger, nullable := false },
      { name := "email", type := tString100, nullable := false } ] }

/-- Example scenario, live side: `order(order_id, amount Numeric(8,2))`. -/
def liveOrder : Table :=
  { name := "order", columns :=
    [ { name := "order_id", type := tInteger, nullable := false },
      { name := "amount", type := tNumeric 8 2, nullable := true } ] }

/-- Example scenario, live side: `extra(x, uid)` with a foreign key to
`user`. -/
def liveExtra : Table :=
  { name := "extra", columns :=
    [ { name := "x", type := tChar, nullable := true },
      { name := "uid", type := tInteger, nullable := true } ],
    fkRefs := ["user"] }

/-- Example scenario: the live schema snapshot. -/
def liveSchema : List Table := [liveUser, liveAddress, liveOrder, liveExtra]

/-- Example scenario, desired side: `user(id, name, a1 default "x")` with
`name` not nullable. -/
def wantUser : Table :=
  { name := "user", columns :=
    [ { name := "id", type := tInteger, nullable := false },
      { name := "name", type := tString50, nullable := false },
      { name := "a1", type := tText, nullable := true,
        default := some "x" } ] }

/-- Example scenario, desired side: `address(id, email, street)`. -/
def wantAddress : Table :=
  { name := "address", columns :=
    [ { name := "id", type := tInteger, nullable := false },
      { name := "email", type := tString100, nullable := false },
      { name := "street", type := tString50, nullable := true } ] }

/-- Example scenario, desired side:
`order(order_id, amount Numeric(10,2), user_id)`. -/
def wantOrder : Table :=
  { name := "order", columns :=
    [ { name := "order_id", type := tInteger, nullable := false },
      { name := "amount", type := tNumeric 10 2, nullable := true },
      { name := "user_id", type := tInteger, nullable := true } ],
    fkRefs := ["user"] }

/-- Example scenario, desired side: `item(id, description, order_id)` with
a foreign key to `order`. -/
def wantItem : Table :=
  { name := "item", columns :=
    [ { name := "id", type := tInteger, nullable := false },
      { name := "description", type := tString100, nullable := true },
      { name := "order_id", type := tInteger, nullable := true } ],
    fkRefs := ["order"] }

/-- Example scenario: the desired schema snapshot, in dependency-sorted
(`metadata.sorted_tables`) order. -/
def wantSchema : List Table := [wantUser, wantAddress, wantOrder, wantItem]

/-- The eight change entries the example scenario must produce. -/
def expectedDiffs : List Change :=
  [ .addTable wantItem,
    .removeTable liveExtra,
    .addColumn none "address"
      { name := "street", type := tString50, nullable := true },
    .addColumn none "order"
      { name := "user_id", type := tInteger, nullable := true },
    .modify [.modifyType none "order" "amount" true none
      (tNumeric 8 2) (tNumeric 10 2)],
    .removeColumn none "user"
      { name := "pw", type := tString50, nullable := true },
    .modify [.modifyDefault none "user" "a1" true tText none (some "x")],
    .modify [.modifyNullable none "user" "name" tString50 none true false] ]

/-- Three-way-difference demo, live column: `Numeric(8,2) NOT NULL
DEFAULT '0'`. -/
def demoConnCol : Column :=
  { name := "c", type := tNumeric 8 2, nullable := false, default := some "0" }

/-- Three-way-difference demo, desired column: `Numeric(10,2) NULL
DEFAULT '1'`. -/
def demoMetaCol : Column :=
  { name := "c", type := tNumeric 10 2, nullable := true, default := some "1" }

/-- Three-way-difference demo, live table. -/
def demoConnT : Table := { name := "t", columns := [demoConnCol] }

/-- Three-way-difference demo, desired table. -/
def demoMetaT : Table := { name := "t", columns := [demoMetaCol] }

/-- Reference-only counterexample: live unique constraint `uq1(a)`. -/
def uqColA : UniqueDef := { name := some "uq1", columnNames := ["a"] }

/-- Reference-only counterexample: desired unique constraint `uq1(a, b)`. -/
def uqColAB : UniqueDef := { name := some "uq1", columnNames := ["a", "b"] }

/-- Reference-only counterexample: the shared column list of both sides. -/
def refOnlyCols : List Column :=
  [ { name := "a", type := tInteger, nullable := true },
    { name := "b", type := tInteger, nullable := true } ]

/-- Reference-only counterexample, live table with `uq1(a)`. -/
def refOnlyLive : Table :=
  { name := "t", columns := refOnlyCols, uniques := [uqColA] }

/-- Reference-only counterexample, desired table marked reference-only with
`uq1(a, b)`. -/
def refOnlyWant : Table :=
  { name := "t", columns := refOnlyCols, uniques := [uqColAB],
    mappingOnly := true }

/-- Removal-order counterexample: a parent table. -/
def parentT : Table :=
  { name := "parent", columns :=
    [ { name := "id", type := tInteger, nullable := false } ] }

/-- Removal-order counterexample: a child table referencing `parent`. -/
def childT : Table :=
  { name := "child", columns :=
    [ { name := "parent_id", type := tInteger, nullable := true } ],
    fkRefs := ["parent"] }

/-- Removal-order analysis: a table `a` with no foreign key. -/
def tblA : Table :=
  { name := "a", columns :=
    [ { name := "id", type := tInteger, nullable := false } ] }

/-- Removal-order analysis: a table `b` referencing `a`. -/
def tblBrefA : Table :=
  { name := "b", columns :=
    [ { name := "id", type := tInteger, nullable := false } ],
    fkRefs := ["a"] }

/-- Removal-order analysis: a table `a` referencing `b`. -/
def tblArefB : Table :=
  { name := "a", columns :=
    [ { name := "id", type := tInteger, nullable := false } ],
    fkRefs := ["b"] }

/-- Removal-order analysis: a table `b` with no foreign key. -/
def tblB : Table :=
  { name := "b", columns :=
    [ { name := "id", type := tInteger, nullable := false } ] }

/-- Compound-modify demo sub-change: nullable flips on `t.c`. -/
def demoNullSub : SubModify :=
  .modifyNullable none "t" "c" tInteger none true false

/-- Compound-modify demo sub-change: server default changes on `t.c`. -/
def demoDefSub : SubModify :=
  .modifyDefault none "t" "c" true tInteger none (some "x")

/-- Default rendering context (`op.` / `sa.` prefixes). -/
def ctx0 : AutogenCtx := {}

theorem compareTy_self (t : SqlType) : compareTy t t = false := by
  unfold compareTy
  dsimp only
  split
  · rfl
  · split
    · rfl
    · simp

theorem colDiffs_self (schema : Option String) (tname cname : String)
    (c : Column) (m : Bool) : colDiffs schema tname cname c c m = [] := by
  unfold colDiffs compareTypeSub compareNullableSub compareDefaultSub
  simp [compareTy_self]

theorem compareColumns_self (schema : Option String) (tname : String)
    (filters : List ObjFilter) (t : Table) :
    compareColumns schema tname filters t t = [] := by
  unfold compareColumns
  dsimp only
  have hsorted : ∀ c, c ∈ List.insertionSort (fun a b => strLe a b = true) (colNames t) →
      c ∈ colNames t := fun c hc =>
    (List.mem_insertionSort (fun a b => strLe a b = true)).mp hc
  have hadds : (List.insertionSort (fun a b => strLe a b = true) (colNames t)).filter
      (fun c => decide (c ∉ colNames t)) = [] := by
    refine List.filter_eq_nil_iff.mpr (fun c hc => ?_)
    simpa using hsorted c hc
  have hrem : (colNames t).filter (fun c => decide (c ∉ colNames t)) = [] := by
    refine List.filter_eq_nil_iff.mpr (fun c hc => ?_)
    simpa using hc
  rw [hadds, hrem]
  simp only [List.filterMap_nil, List.nil_append]
  refine List.filterMap_eq_nil_iff.mpr (fun cname hmem => ?_)
  cases hcb : colByName t cname with
  | none => simp [hcb]
  | some c => simp [hcb, colDiffs_self]

theorem compareUniques_self_fst (tname : String) (t : Table) (sup : Bool) :
    (compareUniques tname t t sup).1 = [] := by
  unfold compareUniques
  split
  · rfl
  · dsimp only
    have hf : (assocKeys (namedUniques t.uniques)).filter
        (fun k => decide (k ∉ assocKeys (namedUniques t.uniques))) = [] := by
      refine List.filter_eq_nil_iff.mpr (fun k hk => ?_)
      simpa using hk
    rw [hf]
    simp only [List.filterMap_nil, List.nil_append, List.append_nil]
    refine List.flatMap_eq_nil_iff.mpr (fun k hk => ?_)
    cases hl : lookupLast (namedUniques t.uniques) k with
    | none => simp [hl]
    | some u => simp [hl]

theorem compareIndexes_self (tname : String) (t : Table)
    (cu : Option (List String)) : compareIndexes tname t t cu = [] := by
  unfold compareIndexes
  dsimp only
  have hf : ∀ cuniq : List String,
      (((assocKeys (indexPairs t.indexes)).filter
          (fun k => decide (k ∉ cuniq))).filter
        (fun k => decide (k ∉ (assocKeys (indexPairs t.indexes)).filter
          (fun k => decide (k ∉ cuniq))))) = [] := by
    intro cuniq
    refine List.filter_eq_nil_iff.mpr (fun k hk => ?_)
    simpa using hk
  rw [hf]
  simp only [List.filterMap_nil, List.nil_append]
  refine List.flatMap_eq_nil_iff.mpr (fun k hk => ?_)
  cases hl : lookupLast (indexPairs t.indexes) k with
  | none => simp [hl]
  | some i => simp [hl]

/-- C4: diffing a schema snapshot against an identical counterpart
snapshot — equal table-key sets and equal table contents on the live and
desired sides — yields an empty change list, for every object-filter
chain, destructive-removal setting and unique-reflection capability. -/
theorem diff_identical_snapshots_empty (ks : List TableKey) (ts : List Table)
    (filters : List ObjFilter) (removeTables uniquesSupported : Bool) :
    compareTables ks ks ts ts filters removeTables uniquesSupported = [] := by
  unfold compareTables compareTablesEnum
  dsimp only
  have hk : ks.filter (fun k => decide (k ∉ ks)) = [] := by
    refine List.filter_eq_nil_iff.mpr (fun k hk => ?_)
    simpa using hk
  rw [hk]
  simp only [List.filterMap_nil, List.nil_append]
  refine List.flatMap_eq_nil_iff.mpr (fun k hk => ?_)
  cases hft : findTable ts k with
  | none => simp [hft]
  | some t =>
    simp [hft, compareColumns_self, compareUniques_self_fst,
      compareIndexes_self]

/-- C1: diffing the example desired schema against the example live schema
(with destructive table removal enabled, as the expected `RemoveTable`
entry presumes) produces exactly the eight change entries `AddTable(item)`,
`RemoveTable(extra)`, `AddColumn(address.street)`, `AddColumn(order.user_id)`,
`CompoundColumnModify(order.amount, type 8,2 to 10,2)`,
`RemoveColumn(user.pw)`, `CompoundColumnModify(user.a1, default None to x)`,
`CompoundColumnModify(user.name, nullable True to False)`, in that order. -/
theorem example_scenario_produces_expected_diffs :
    produceNetChanges liveSchema wantSchema [] true true = expectedDiffs := by
  decide

/-- C2: the revert block is produced by iterating the change list in
reverse while the apply block iterates it forward, and for every compound
column-modify sub-change the (old value, new value) pair assigned when
rendering the revert instruction is exactly the swap of the pair assigned
when rendering the apply instruction. -/
theorem revert_reverses_list_and_swaps_pairs (ctx : AutogenCtx)
    (diffs : List Change) :
    (produceDowngradeCommands ctx diffs =
      String.intercalate "\n"
        (if ((diffs.map (invokeCommand ctx Dir.down)).reverse).isEmpty then
          ["pass"]
        else (diffs.map (invokeCommand ctx Dir.down)).reverse))
    ∧ (produceUpgradeCommands ctx diffs =
      String.intercalate "\n"
        (if (diffs.map (invokeCommand ctx Dir.up)).isEmpty then ["pass"]
        else diffs.map (invokeCommand ctx Dir.up)))
    ∧ (∀ s : SubModify,
        usedPair Dir.down s = Prod.swap (usedPair Dir.up s)) := by
  refine ⟨?_, rfl, ?_⟩
  · unfold produceDowngradeCommands
    rw [List.map_reverse]
  · intro s
    rfl

/-- C9 counterexample: for the empty change list the rendered block does
not have every line indented by the four-space unit — the final `strip()`
of `_indent` removes the first marker line's indentation. -/
theorem empty_block_not_all_lines_indented :
    ¬ ((splitLines (indentBlock (produceUpgradeCommands ctx0 []))).all
        (fun l => strStarts l "    ") = true) := by
  decide

/-- C9 (amended): for the empty change list each rendered block (apply and
revert) is exactly the begin marker line, one indented no-op `pass`
instruction line, and the indented end marker line — never empty text; the
begin marker line alone carries no indentation because the trailing strip
removes it. -/
theorem empty_change_list_renders_pass_blocks (ctx : AutogenCtx) :
    indentBlock (produceUpgradeCommands ctx []) =
      "### commands auto generated by Alembic - please adjust! ###\n    pass\n    ### end Alembic commands ###"
    ∧ indentBlock (produceDowngradeCommands ctx []) =
      "### commands auto generated by Alembic - please adjust! ###\n    pass\n    ### end Alembic commands ###" := by
  exact ⟨rfl, rfl⟩

/-- C5 counterexample: a reference-only (`__mapping_only__`) desired table
whose unique constraint differs from the live one still produces
constraint-level change entries — `_compare_uniques` has no reference-only
suppression, so the claim that zero entries are appended for every kind of
difference is false. -/
theorem reference_only_table_still_emits_constraint_changes :
    refOnlyWant.mappingOnly = true
    ∧ produceNetChanges [refOnlyLive] [refOnlyWant] [] false true
        = [.removeConstraint uqColA, .addConstraint uqColAB] := by
  exact ⟨rfl, by decide⟩

theorem colDiffs_mappingOnly (schema : Option String) (tname cname : String)
    (cc mc : Column) : colDiffs schema tname cname cc mc true = [] := by
  unfold colDiffs compareTypeSub compareNullableSub compareDefaultSub
  dsimp only
  simp

/-- C5 (amended): a reference-only (`__mapping_only__`) desired table
suppresses every column-level entry (adds, removes, compound modifies) and
every index-level entry of a diff pass, but the unique-constraint
comparison ignores the reference-only flag entirely, so constraint-level
entries for such a table are still emitted. -/
theorem reference_only_suppression_scope (schema : Option String)
    (tname : String) (filters : List ObjFilter) (connTable metaTable : Table)
    (cu : Option (List String)) (sup : Bool) :
    compareColumns schema tname filters connTable
        { metaTable with mappingOnly := true } = []
    ∧ compareIndexes tname connTable { metaTable with mappingOnly := true } cu
        = []
    ∧ compareUniques tname connTable { metaTable with mappingOnly := true } sup
        = compareUniques tname connTable metaTable sup := by
  refine ⟨?_, ?_, rfl⟩
  · unfold compareColumns
    dsimp only
    refine List.append_eq_nil.mpr ⟨List.append_eq_nil.mpr ⟨?_, ?_⟩, ?_⟩
    · refine List.filterMap_eq_nil_iff.mpr (fun cname hmem => ?_)
      cases hcb : colByName { metaTable with mappingOnly := true } cname with
      | none => simp [hcb]
      | some c => simp [hcb]
    · refine List.filterMap_eq_nil_iff.mpr (fun cname hmem => ?_)
      cases hcb : colByName connTable cname with
      | none => simp [hcb]
      | some c => simp [hcb]
    · refine List.filterMap_eq_nil_iff.mpr (fun cname hmem => ?_)
      cases hm : colByName { metaTable with mappingOnly := true } cname with
      | none => simp [hm]
      | some mc =>
        cases hc : colByName connTable cname with
        | none => simp [hm, hc]
        | some cc => simp [hm, hc, colDiffs_mappingOnly]
  · unfold compareIndexes
    dsimp only
    refine List.append_eq_nil.mpr ⟨List.append_eq_nil.mpr ⟨?_, ?_⟩, ?_⟩
    · refine List.filterMap_eq_nil_iff.mpr (fun k hk => ?_)
      simp
    · refine List.filterMap_eq_nil_iff.mpr (fun k hk => ?_)
      simp
    · refine List.flatMap_eq_nil_iff.mpr (fun k hk => ?_)
      cases hm : lookupLast
          (indexPairs ({ metaTable with mappingOnly := true } : Table).indexes)
          k with
      | none => simp [hm]
      | some mi =>
        cases hc : lookupLast (indexPairs connTable.indexes) k with
        | none => simp [hm, hc]
        | some ci => simp [hm, hc]

/-- C8: when the live column type or the desired column type has
unresolvable (null) type affinity, the type comparison short-circuits and
appends nothing, for any type on the other side; consequently the
column's compound diff never contains a type sub-change in that case. -/
theorem null_affinity_short_circuits_type_compare (schema : Option String) (tname cname : String)
    (connCol metaCol : Column) (m : Bool) :
    compareTypeSub schema tname cname
        { connCol with type := { connCol.type with nullAffinity := true } }
        metaCol m = []
    ∧ compareTypeSub schema tname cname connCol
        { metaCol with type := { metaCol.type with nullAffinity := true } }
        m = []
    ∧ (colDiffs schema tname cname
        { connCol with type := { connCol.type with nullAffinity := true } }
        metaCol m).all (fun s => !(subIsTypeChange s)) = true
    ∧ (colDiffs schema tname cname connCol
        { metaCol with type := { metaCol.type with nullAffinity := true } }
        m).all (fun s => !(subIsTypeChange s)) = true := by
  have h1 : compareTypeSub schema tname cname
      { connCol with type := { connCol.type with nullAffinity := true } }
      metaCol m = [] := by
    unfold compareTypeSub
    simp
  have h2 : compareTypeSub schema tname cname connCol
      { metaCol with type := { metaCol.type with nullAffinity := true } }
      m = [] := by
    unfold compareTypeSub
    by_cases hc : connCol.type.nullAffinity = true
    · simp [hc]
    · simp [hc]
  have hnul : ∀ (cc mc : Column),
      (compareNullableSub schema tname cname cc mc m).all
        (fun s => !(subIsTypeChange s)) = true := by
    intro cc mc
    unfold compareNullableSub
    split
    · split
      · simp [subIsTypeChange]
      · simp
    · simp
  have hdef : ∀ (cc mc : Column),
      (compareDefaultSub schema tname cname cc mc m).all
        (fun s => !(subIsTypeChange s)) = true := by
    intro cc mc
    unfold compareDefaultSub
    dsimp only
    split
    · simp
    · split
      · split
        · simp [subIsTypeChange]
        · simp
      · simp
  refine ⟨h1, h2, ?_, ?_⟩
  · unfold colDiffs
    rw [h1]
    simp only [List.nil_append, List.all_append]
    rw [hnul, hdef]
    rfl
  · unfold colDiffs
    rw [h2]
    simp only [List.nil_append, List.all_append]
    rw [hnul, hdef]
    rfl

theorem compareTypeSub_cname (schema : Option String) (tname cname : String)
    (cc mc : Column) (m : Bool) :
    ∀ s ∈ compareTypeSub schema tname cname cc mc m, subCname s = cname := by
  intro s hs
  unfold compareTypeSub at hs
  repeat' split at hs
  all_goals simp_all [subCname]

theorem compareNullableSub_cname (schema : Option String)
    (tname cname : String) (cc mc : Column) (m : Bool) :
    ∀ s ∈ compareNullableSub schema tname cname cc mc m, subCname s = cname := by
  intro s hs
  unfold compareNullableSub at hs
  repeat' split at hs
  all_goals simp_all [subCname]

theorem compareDefaultSub_cname (schema : Option String)
    (tname cname : String) (cc mc : Column) (m : Bool) :
    ∀ s ∈ compareDefaultSub schema tname cname cc mc m, subCname s = cname := by
  intro s hs
  unfold compareDefaultSub at hs
  dsimp only at hs
  repeat' split at hs
  all_goals simp_all [subCname]

theorem colDiffs_cname (schema : Option String) (tname cname : String)
    (cc mc : Column) (m : Bool) :
    ∀ s ∈ colDiffs schema tname cname cc mc m, subCname s = cname := by
  intro s hs
  unfold colDiffs at hs
  rcases List.mem_append.mp hs with h | h
  · rcases List.mem_append.mp h with h1 | h1
    · exact compareTypeSub_cname schema tname cname cc mc m s h1
    · exact compareNullableSub_cname schema tname cname cc mc m s h1
  · exact compareDefaultSub_cname schema tname cname cc mc m s h

theorem countP_filterMap_le_one {α β : Type} [DecidableEq α] (L : List α)
    (f : α → Option β) (p : β → Bool) (a0 : α) (hL : L.Nodup)
    (hf : ∀ c e, c ∈ L → f c = some e → p e = true → c = a0) :
    (L.filterMap f).countP p ≤ 1 := by
  induction L with
  | nil => simp
  | cons c rest ih =>
    obtain ⟨hnotin, hnd⟩ := List.nodup_cons.mp hL
    rw [List.filterMap_cons]
    cases hfc : f c with
    | none =>
      exact ih hnd (fun c2 e hc2 hf2 hp2 =>
        hf c2 e (List.mem_cons_of_mem _ hc2) hf2 hp2)
    | some e =>
      rw [List.countP_cons]
      cases hpe : p e with
      | false =>
        simpa [hpe] using ih hnd (fun c2 e2 hc2 hf2 hp2 =>
          hf c2 e2 (List.mem_cons_of_mem _ hc2) hf2 hp2)
      | true =>
        have hceq : c = a0 := hf c e (List.mem_cons_self _ _) hfc hpe
        have hzero : (rest.filterMap f).countP p = 0 := by
          refine List.countP_eq_zero.mpr (fun b hb hpb => ?_)
          obtain ⟨c2, hc2, hfc2⟩ := List.mem_filterMap.mp hb
          have hc2eq : c2 = a0 :=
            hf c2 b (List.mem_cons_of_mem _ hc2) hfc2 hpb
          exact hnotin (hceq ▸ hc2eq ▸ hc2)
        simp [hpe, hzero]

theorem modsFun_eq_some (schema : Option String) (tname : String)
    (filters : List ObjFilter) (connTable metaTable : Table) (x : String)
    (ch : Change)
    (hfx : (match colByName metaTable x, colByName connTable x with
      | some metaCol, some connCol =>
        if runFilters filters ⟨x, "column", false, true⟩ then
          match colDiffs schema tname x connCol metaCol
              metaTable.mappingOnly with
          | [] => none
          | l => some (Change.modify l)
        else none
      | _, _ => none) = some ch) :
    ∃ metaCol connCol, colByName metaTable x = some metaCol
      ∧ colByName connTable x = some connCol
      ∧ ch = Change.modify (colDiffs schema tname x connCol metaCol
          metaTable.mappingOnly)
      ∧ colDiffs schema tname x connCol metaCol metaTable.mappingOnly ≠ [] := by
  cases h1 : colByName metaTable x with
  | none => rw [h1] at hfx; simp at hfx
  | some mc =>
    cases h2 : colByName connTable x with
    | none => rw [h1, h2] at hfx; simp at hfx
    | some cc =>
      rw [h1, h2] at hfx
      dsimp only at hfx
      by_cases hflt : runFilters filters ⟨x, "column", false, true⟩ = true
      · rw [if_pos hflt] at hfx
        cases hD : colDiffs schema tname x cc mc metaTable.mappingOnly with
        | nil => rw [hD] at hfx; simp at hfx
        | cons s0 rest =>
          rw [hD] at hfx
          dsimp only at hfx
          simp only [Option.some.injEq] at hfx
          refine ⟨mc, cc, rfl, rfl, ?_, ?_⟩
          · rw [hD, ← hfx]
          · rw [hD]; simp
      · rw [if_neg hflt] at hfx; simp at hfx

/-- C3: one diff pass appends at most one compound column-modify entry per
column of a table pair; every compound entry is non-empty and its
sub-changes all concern one column (never split across entries); and a
column whose type, nullable flag and server default all differ at once
yields exactly one compound entry aggregating the three sub-changes. -/
theorem compound_modify_once_per_column (schema : Option String)
    (tname : String) (filters : List ObjFilter) (connTable metaTable : Table) :
    (∀ cname, (compareColumns schema tname filters connTable metaTable).countP
        (isModifyFor cname) ≤ 1)
    ∧ (compareColumns schema tname filters connTable metaTable).all
        wellFormedModify = true
    ∧ compareColumns none "t" [] demoConnT demoMetaT =
        [.modify
          [.modifyType none "t" "c" false (some "0") (tNumeric 8 2)
            (tNumeric 10 2),
          .modifyNullable none "t" "c" (tNumeric 8 2) (some "0") false true,
          .modifyDefault none "t" "c" false (tNumeric 8 2)
            (some (squo ++ "0" ++ squo)) (some "1")]] := by
  refine ⟨?_, ?_, by decide⟩
  · intro cname
    unfold compareColumns
    dsimp only
    rw [List.countP_append, List.countP_append]
    have hadds :
        (((List.insertionSort (fun a b => strLe a b = true)
            (colNames metaTable)).filter
          (fun c => decide (c ∉ colNames connTable))).filterMap
          (fun cname2 =>
            match colByName metaTable cname2 with
            | some c =>
              if runFilters filters
                  ⟨cname2, "column", false, false⟩ then
                if ¬ metaTable.mappingOnly then
                  some (.addColumn schema tname c)
                else none
              else none
            | none => none)).countP (isModifyFor cname) = 0 := by
      refine List.countP_eq_zero.mpr (fun b hb => ?_)
      obtain ⟨x, hx, hfx⟩ := List.mem_filterMap.mp hb
      repeat' split at hfx
      all_goals simp at hfx
      all_goals
        subst hfx
        simp [isModifyFor]
    have hrem :
        (((colNames connTable).filter
          (fun c => decide (c ∉ colNames metaTable))).filterMap
          (fun cname2 =>
            match colByName connTable cname2 with
            | some c =>
              if runFilters filters ⟨cname2, "column", true, false⟩ then
                if ¬ metaTable.mappingOnly then
                  some (.removeColumn schema tname
                    { name := cname2, type := c.type, nullable := c.nullable,
                      default := c.default })
                else none
              else none
            | none => none)).countP (isModifyFor cname) = 0 := by
      refine List.countP_eq_zero.mpr (fun b hb => ?_)
      obtain ⟨x, hx, hfx⟩ := List.mem_filterMap.mp hb
      repeat' split at hfx
      all_goals simp at hfx
      all_goals
        subst hfx
        simp [isModifyFor]
    have hmods :
        (((List.insertionSort (fun a b => strLe a b = true)
            (colNames metaTable)).filter
          (fun c => decide (c ∈ colNames connTable))).filterMap
          (fun cname2 =>
            match colByName metaTable cname2, colByName connTable cname2 with
            | some metaCol, some connCol =>
              if runFilters filters ⟨cname2, "column", false, true⟩ then
                match colDiffs schema tname cname2 connCol metaCol
                    metaTable.mappingOnly with
                | [] => none
                | l => some (.modify l)
              else none
            | _, _ => none)).countP (isModifyFor cname) ≤ 1 := by
      refine countP_filterMap_le_one _ _ _ cname ?_ ?_
      · exact List.Nodup.filter _
          (((List.perm_insertionSort (fun a b => strLe a b = true)
            (colNames metaTable)).nodup_iff).mpr (List.nodup_dedup _))
      · intro c e hc hfc hpe
        obtain ⟨mc, cc, h1, h2, rfl, hne⟩ :=
          modsFun_eq_some schema tname filters connTable metaTable c _ hfc
        have hpe2 : ∃ s ∈ colDiffs schema tname c cc mc
            metaTable.mappingOnly, subCname s = cname := by
          simpa [isModifyFor] using hpe
        obtain ⟨s, hs, hcn⟩ := hpe2
        have h3 := colDiffs_cname schema tname c cc mc
          metaTable.mappingOnly s hs
        rw [h3] at hcn
        exact hcn
    omega
  · refine List.all_eq_true.mpr (fun ch hch => ?_)
    unfold compareColumns at hch
    dsimp only at hch
    rcases List.mem_append.mp hch with h | h
    · rcases List.mem_append.mp h with h1 | h1
      · obtain ⟨x, hx, hfx⟩ := List.mem_filterMap.mp h1
        repeat' split at hfx
        all_goals simp at hfx
        all_goals
          subst hfx
          simp [wellFormedModify]
      · obtain ⟨x, hx, hfx⟩ := List.mem_filterMap.mp h1
        repeat' split at hfx
        all_goals simp at hfx
        all_goals
          subst hfx
          simp [wellFormedModify]
    · obtain ⟨x, hx, hfx⟩ := List.mem_filterMap.mp h
      obtain ⟨mc, cc, h1, h2, rfl, hne⟩ :=
        modsFun_eq_some schema tname filters connTable metaTable x _ hfx
      rcases hD : colDiffs schema tname x cc mc metaTable.mappingOnly with
        _ | ⟨s0, rest⟩
      · exact absurd hD hne
      · have hall := colDiffs_cname schema tname x cc mc metaTable.mappingOnly
        rw [hD] at hall
        have h0 : subCname s0 = x := hall s0 (List.mem_cons_self _ _)
        simp only [wellFormedModify]
        refine List.all_eq_true.mpr (fun y hy => ?_)
        have hyx : subCname y = x := hall y (List.mem_cons_of_mem _ hy)
        simp [hyx, h0]

theorem lookupLast_indexPairs (l : List IndexDef) (k : String) (i : IndexDef)
    (h : lookupLast (indexPairs l) k = some i) : i.name = k := by
  unfold lookupLast at h
  cases hf : (indexPairs l).reverse.find? (fun p => decide (p.1 = k)) with
  | none =>
    rw [hf] at h
    exact Option.noConfusion h
  | some p =>
    rw [hf] at h
    have hval : p.2 = i := Option.some.inj h
    have hp1 : p.1 = k := by simpa using List.find?_some hf
    have hpm : p ∈ indexPairs l :=
      List.mem_reverse.mp (List.mem_of_find?_eq_some hf)
    obtain ⟨j, hj, hw⟩ := List.mem_map.mp hpm
    have hsnd : p.2 = j := by rw [← hw]
    have hfst : p.1 = j.name := by rw [← hw]
    rw [← hval, hsnd, ← hfst, hp1]

/-- C6: for a matched table the live unique-constraint name set (returned
by `_compare_uniques` for dedup) is subtracted from both index name-sets,
so no index-level change entry (add or remove) is ever produced for a name
that is a live unique-constraint name — the same structure can therefore
never yield both an index-level and a constraint-level entry. -/
theorem live_unique_names_subtracted_from_index_sets
    (tname : String) (connTable metaTable : Table) :
    (compareUniques tname connTable metaTable true).2
        = some (connUniqueNames connTable)
    ∧ ((connUniqueNames connTable).all (fun nm =>
        (compareIndexes tname connTable metaTable
          (compareUniques tname connTable metaTable true).2).all
          (fun ch => decide (indexNameOf ch ≠ some nm)))) = true := by
  have h2 : (compareUniques tname connTable metaTable true).2
      = some (connUniqueNames connTable) := by
    unfold compareUniques
    simp [connUniqueNames]
  refine ⟨h2, ?_⟩
  rw [h2]
  refine List.all_eq_true.mpr (fun nm hnm => ?_)
  refine List.all_eq_true.mpr (fun ch hch => ?_)
  unfold compareIndexes at hch
  dsimp only at hch
  rcases List.mem_append.mp hch with h | h
  · rcases List.mem_append.mp h with h1 | h1
    · obtain ⟨k, hk, hfk⟩ := List.mem_filterMap.mp h1
      have hknot : k ∉ connUniqueNames connTable := by
        have := List.of_mem_filter (List.mem_of_mem_filter hk)
        simpa using this
      have hkn : k ≠ nm := fun he => hknot (he ▸ hnm)
      split at hfk
      · cases hl : lookupLast (indexPairs metaTable.indexes) k with
        | none => rw [hl] at hfk; exact Option.noConfusion hfk
        | some i =>
          rw [hl] at hfk
          have hfk2 : Change.addIndex i = ch := Option.some.inj hfk
          have hn := lookupLast_indexPairs _ _ _ hl
          rw [← hfk2]
          simp [indexNameOf, hn, hkn]
      · exact Option.noConfusion hfk
    · obtain ⟨k, hk, hfk⟩ := List.mem_filterMap.mp h1
      have hknot : k ∉ connUniqueNames connTable := by
        have := List.of_mem_filter (List.mem_of_mem_filter hk)
        simpa using this
      have hkn : k ≠ nm := fun he => hknot (he ▸ hnm)
      split at hfk
      · cases hl : lookupLast (indexPairs connTable.indexes) k with
        | none => rw [hl] at hfk; exact Option.noConfusion hfk
        | some i =>
          rw [hl] at hfk
          have hfk2 : Change.removeIndex i = ch := Option.some.inj hfk
          have hn := lookupLast_indexPairs _ _ _ hl
          rw [← hfk2]
          simp [indexNameOf, hn, hkn]
      · exact Option.noConfusion hfk
  · obtain ⟨k, hk, hmem⟩ := List.mem_flatMap.mp h
    have hknot : k ∉ connUniqueNames connTable := by
      have := List.of_mem_filter (List.mem_of_mem_filter hk)
      simpa using this
    have hkn : k ≠ nm := fun he => hknot (he ▸ hnm)
    cases hm : lookupLast (indexPairs metaTable.indexes) k with
    | none => rw [hm] at hmem; simp at hmem
    | some mi =>
      cases hc : lookupLast (indexPairs connTable.indexes) k with
      | none => rw [hm, hc] at hmem; simp at hmem
      | some ci =>
        rw [hm, hc] at hmem
        dsimp only at hmem
        have hnm2 := lookupLast_indexPairs _ _ _ hm
        have hnc := lookupLast_indexPairs _ _ _ hc
        split at hmem
        · split at hmem
          · rcases List.mem_cons.mp hmem with rfl | hmem2
            · simp [indexNameOf, hnc, hkn]
            · rcases List.mem_cons.mp hmem2 with rfl | hmem3
              · simp [indexNameOf, hnm2, hkn]
              · simp at hmem3
          · simp at hmem
        · simp at hmem

theorem applySub_keeps_nullableArg (d : Dir) (kw : ModifyKw) (s : SubModify)
    (h : kw.nullableArg ≠ none) : (applySub d kw s).nullableArg ≠ none := by
  cases s with
  | modifyType _ _ _ _ _ _ _ => simpa [applySub] using h
  | modifyDefault _ _ _ _ _ _ _ => simpa [applySub] using h
  | modifyNullable _ _ _ _ _ _ _ =>
    cases d <;>
      simp [applySub, usedPair, subOldVal, subNewVal, ModVal.nulVal]

theorem applySub_keeps_serverDefaultArg (d : Dir) (kw : ModifyKw)
    (s : SubModify) (h : kw.serverDefaultArg ≠ none) :
    (applySub d kw s).serverDefaultArg ≠ none := by
  cases s with
  | modifyType _ _ _ _ _ _ _ => simpa [applySub] using h
  | modifyNullable _ _ _ _ _ _ _ => simpa [applySub] using h
  | modifyDefault _ _ _ _ _ _ _ =>
    cases d <;>
      simp [applySub, usedPair, subOldVal, subNewVal, ModVal.dfVal]

theorem foldl_nullableArg (d : Dir) (subs : List SubModify) (kw : ModifyKw)
    (h : hasNullableChange subs = true ∨ kw.nullableArg ≠ none) :
    (subs.foldl (applySub d) kw).nullableArg ≠ none := by
  induction subs generalizing kw with
  | nil =>
    rcases h with h | h
    · simp [hasNullableChange] at h
    · simpa using h
  | cons s rest ih =>
    rw [List.foldl_cons]
    apply ih
    rcases h with h | h
    · rw [hasNullableChange, List.any_cons] at h
      rcases Bool.or_eq_true_iff.mp h with h1 | h1
      · right
        cases s with
        | modifyNullable _ _ _ _ _ _ _ =>
          cases d <;>
            simp [applySub, usedPair, subOldVal, subNewVal, ModVal.nulVal]
        | modifyType _ _ _ _ _ _ _ => simp at h1
        | modifyDefault _ _ _ _ _ _ _ => simp at h1
      · left
        exact h1
    · exact Or.inr (applySub_keeps_nullableArg d kw s h)

theorem foldl_serverDefaultArg (d : Dir) (subs : List SubModify)
    (kw : ModifyKw)
    (h : hasDefaultChange subs = true ∨ kw.serverDefaultArg ≠ none) :
    (subs.foldl (applySub d) kw).serverDefaultArg ≠ none := by
  induction subs generalizing kw with
  | nil =>
    rcases h with h | h
    · simp [hasDefaultChange] at h
    · simpa using h
  | cons s rest ih =>
    rw [List.foldl_cons]
    apply ih
    rcases h with h | h
    · rw [hasDefaultChange, List.any_cons] at h
      rcases Bool.or_eq_true_iff.mp h with h1 | h1
      · right
        cases s with
        | modifyDefault _ _ _ _ _ _ _ =>
          cases d <;>
            simp [applySub, usedPair, subOldVal, subNewVal, ModVal.dfVal]
        | modifyType _ _ _ _ _ _ _ => simp at h1
        | modifyNullable _ _ _ _ _ _ _ => simp at h1
      · left
        exact h1
    · exact Or.inr (applySub_keeps_serverDefaultArg d kw s h)

theorem finalizeKw_existingNullable (kw : ModifyKw)
    (h : kw.nullableArg ≠ none) :
    (finalizeKw kw).existingNullable = none := by
  obtain ⟨et, en, esd, ta, na, sd⟩ := kw
  cases na <;> cases sd <;> simp_all [finalizeKw]

theorem finalizeKw_existingServerDefault (kw : ModifyKw)
    (h : kw.serverDefaultArg ≠ none) :
    (finalizeKw kw).existingServerDefault = none := by
  obtain ⟨et, en, esd, ta, na, sd⟩ := kw
  cases na <;> cases sd <;> simp_all [finalizeKw]

theorem pieces_have_existingType (ctx : AutogenCtx) (schema : Option String)
    (kw : ModifyKw) :
    ArgName.existingType ∈ (modifyColPieces ctx schema kw).map Prod.fst := by
  unfold modifyColPieces
  simp

theorem pieces_no_existingNullable (ctx : AutogenCtx) (schema : Option String)
    (kw : ModifyKw) (h : kw.existingNullable = none) :
    ArgName.existingNullable ∉ (modifyColPieces ctx schema kw).map Prod.fst := by
  obtain ⟨et, en, esd, ta, na, sd⟩ := kw
  obtain rfl : en = none := h
  unfold modifyColPieces
  dsimp only
  cases sd <;> cases ta <;> cases na <;> cases schema <;>
    rcases esd with _ | ⟨_ | s⟩ <;> simp

theorem pieces_no_existingServerDefault (ctx : AutogenCtx)
    (schema : Option String) (kw : ModifyKw)
    (h : kw.existingServerDefault = none) :
    ArgName.existingServerDefault ∉
      (modifyColPieces ctx schema kw).map Prod.fst := by
  obtain ⟨et, en, esd, ta, na, sd⟩ := kw
  obtain rfl : esd = none := h
  unfold modifyColPieces
  dsimp only
  cases sd <;> cases ta <;> cases na <;> cases schema <;> cases en <;> simp

/-- C10: in the rendered alter-column instruction of a compound modify,
the `existing_nullable` context argument is omitted whenever the nullable
flag itself is among the changed sub-arguments, `existing_server_default`
is omitted whenever the server default itself is changed, and
`existing_type` is always rendered — in both directions. -/
theorem modify_instruction_context_field_omission (ctx : AutogenCtx)
    (schema : Option String) (d : Dir) (subs : List SubModify) :
    (hasNullableChange subs = true →
      ArgName.existingNullable ∉
        (modifyColPieces ctx schema (buildModifyKw d subs)).map Prod.fst)
    ∧ (hasDefaultChange subs = true →
      ArgName.existingServerDefault ∉
        (modifyColPieces ctx schema (buildModifyKw d subs)).map Prod.fst)
    ∧ ArgName.existingType ∈
        (modifyColPieces ctx schema (buildModifyKw d subs)).map Prod.fst := by
  refine ⟨fun h => ?_, fun h => ?_, pieces_have_existingType _ _ _⟩
  · exact pieces_no_existingNullable _ _ _
      (finalizeKw_existingNullable _ (foldl_nullableArg d subs {} (Or.inl h)))
  · exact pieces_no_existingServerDefault _ _ _
      (finalizeKw_existingServerDefault _
        (foldl_serverDefaultArg d subs {} (Or.inl h)))

/-- Witness for the context-field omission theorem at a concrete compound
entry changing both nullable and server default. -/
theorem modify_instruction_context_field_omission_witness :
    ArgName.existingNullable ∉
      (modifyColPieces ctx0 none
        (buildModifyKw Dir.up [demoNullSub, demoDefSub])).map Prod.fst
    ∧ ArgName.existingServerDefault ∉
      (modifyColPieces ctx0 none
        (buildModifyKw Dir.up [demoNullSub, demoDefSub])).map Prod.fst
    ∧ ArgName.existingType ∈
      (modifyColPieces ctx0 none
        (buildModifyKw Dir.up [demoNullSub, demoDefSub])).map Prod.fst :=
  ⟨(modify_instruction_context_field_omission ctx0 none Dir.up
      [demoNullSub, demoDefSub]).1 (by decide),
   (modify_instruction_context_field_omission ctx0 none Dir.up
      [demoNullSub, demoDefSub]).2.1 (by decide),
   (modify_instruction_context_field_omission ctx0 none Dir.up
      [demoNullSub, demoDefSub]).2.2⟩

theorem findTable_self (ts : List Table) (hnd : (ts.map tableKey).Nodup)
    (t : Table) (ht : t ∈ ts) : findTable ts (tableKey t) = some t := by
  induction ts with
  | nil => simp at ht
  | cons a rest ih =>
    rw [List.map_cons] at hnd
    obtain ⟨hnotin, hnd2⟩ := List.nodup_cons.mp hnd
    unfold findTable
    rcases List.mem_cons.mp ht with rfl | hmem
    · simp [List.find?_cons_of_pos]
    · have hne : ¬ (tableKey a = tableKey t) := by
        intro he
        exact hnotin (he ▸ List.mem_map_of_mem tableKey hmem)
      rw [List.find?_cons_of_neg _ (by simpa using hne)]
      exact ih hnd2 hmem

theorem filterMap_find_gate_sublist (ts : List Table)
    (hnd : (ts.map tableKey).Nodup) (p : TableKey → Bool)
    (g : TableKey → Table → Option Table)
    (hg : ∀ k t t2, g k t = some t2 → t2 = t) :
    ∀ u : List Table, u.Sublist ts →
      (((u.map tableKey).filter p).filterMap
        (fun k => (findTable ts k).bind (g k))).Sublist u := by
  intro u hu
  induction u with
  | nil => simp
  | cons a rest ih =>
    have ha : a ∈ ts := hu.subset (List.mem_cons_self _ _)
    have hrest : rest.Sublist ts :=
      (List.sublist_cons_self a rest).trans hu
    rw [List.map_cons]
    by_cases hp : p (tableKey a) = true
    · rw [List.filter_cons_of_pos hp, List.filterMap_cons]
      rw [findTable_self ts hnd a ha]
      cases hga : g (tableKey a) a with
      | none =>
        simp only [Option.some_bind, hga]
        exact (ih hrest).cons a
      | some t2 =>
        have ht2 : t2 = a := hg _ _ _ hga
        simp only [Option.some_bind, hga]
        rw [ht2]
        exact (ih hrest).cons₂ a
    · rw [List.filter_cons_of_neg hp]
      exact (ih hrest).cons a

theorem compareColumns_no_table_entries (schema : Option String)
    (tname : String) (filters : List ObjFilter) (ct mt : Table) :
    ∀ c ∈ compareColumns schema tname filters ct mt,
      toAdded c = none ∧ toRemoved c = none := by
  intro c hc
  unfold compareColumns at hc
  dsimp only at hc
  rcases List.mem_append.mp hc with h | h
  · rcases List.mem_append.mp h with h1 | h1 <;>
    · obtain ⟨x, hx, hfx⟩ := List.mem_filterMap.mp h1
      repeat' split at hfx
      all_goals simp at hfx
      all_goals
        subst hfx
        exact ⟨rfl, rfl⟩
  · obtain ⟨x, hx, hfx⟩ := List.mem_filterMap.mp h
    obtain ⟨mc, cc, h1, h2, rfl, hne⟩ :=
      modsFun_eq_some schema tname filters ct mt x _ hfx
    exact ⟨rfl, rfl⟩

theorem compareUniques_no_table_entries (tname : String) (ct mt : Table)
    (sup : Bool) :
    ∀ c ∈ (compareUniques tname ct mt sup).1,
      toAdded c = none ∧ toRemoved c = none := by
  intro c hc
  unfold compareUniques at hc
  split at hc
  · simp at hc
  · dsimp only at hc
    rcases List.mem_append.mp hc with h | h
    · rcases List.mem_append.mp h with h1 | h1
      · obtain ⟨k, hk, hfk⟩ := List.mem_filterMap.mp h1
        cases hl : lookupLast (namedUniques mt.uniques) k with
        | none => rw [hl] at hfk; exact Option.noConfusion hfk
        | some u =>
          rw [hl] at hfk
          have hcu := Option.some.inj hfk
          subst hcu
          exact ⟨rfl, rfl⟩
      · obtain ⟨k, hk, hfk⟩ := List.mem_filterMap.mp h1
        cases hl : lookupLast (namedUniques ct.uniques) k with
        | none => rw [hl] at hfk; exact Option.noConfusion hfk
        | some u =>
          rw [hl] at hfk
          have hcu := Option.some.inj hfk
          subst hcu
          exact ⟨rfl, rfl⟩
    · obtain ⟨k, hk, hmem⟩ := List.mem_flatMap.mp h
      cases hl : lookupLast (namedUniques mt.uniques) k with
      | none => rw [hl] at hmem; simp at hmem
      | some mu =>
        cases hl2 : lookupLast (namedUniques ct.uniques) k with
        | none => rw [hl, hl2] at hmem; simp at hmem
        | some cu =>
          rw [hl, hl2] at hmem
          dsimp only at hmem
          split at hmem
          · rcases List.mem_cons.mp hmem with rfl | hmem2
            · exact ⟨rfl, rfl⟩
            · rcases List.mem_cons.mp hmem2 with rfl | hmem3
              · exact ⟨rfl, rfl⟩
              · simp at hmem3
          · simp at hmem

theorem compareIndexes_no_table_entries (tname : String) (ct mt : Table)
    (cu : Option (List String)) :
    ∀ c ∈ compareIndexes tname ct mt cu,
      toAdded c = none ∧ toRemoved c = none := by
  intro c hc
  unfold compareIndexes at hc
  dsimp only at hc
  rcases List.mem_append.mp hc with h | h
  · rcases List.mem_append.mp h with h1 | h1
    · obtain ⟨k, hk, hfk⟩ := List.mem_filterMap.mp h1
      split at hfk
      · cases hl : lookupLast (indexPairs mt.indexes) k with
        | none => rw [hl] at hfk; exact Option.noConfusion hfk
        | some i =>
          rw [hl] at hfk
          have hcu := Option.some.inj hfk
          subst hcu
          exact ⟨rfl, rfl⟩
      · exact Option.noConfusion hfk
    · obtain ⟨k, hk, hfk⟩ := List.mem_filterMap.mp h1
      split at hfk
      · cases hl : lookupLast (indexPairs ct.indexes) k with
        | none => rw [hl] at hfk; exact Option.noConfusion hfk
        | some i =>
          rw [hl] at hfk
          have hcu := Option.some.inj hfk
          subst hcu
          exact ⟨rfl, rfl⟩
      · exact Option.noConfusion hfk
  · obtain ⟨k, hk, hmem⟩ := List.mem_flatMap.mp h
    cases hl : lookupLast (indexPairs mt.indexes) k with
    | none => rw [hl] at hmem; simp at hmem
    | some mi =>
      cases hl2 : lookupLast (indexPairs ct.indexes) k with
      | none => rw [hl, hl2] at hmem; simp at hmem
      | some ci =>
        rw [hl, hl2] at hmem
        dsimp only at hmem
        split at hmem
        · split at hmem
          · rcases List.mem_cons.mp hmem with rfl | hmem2
            · exact ⟨rfl, rfl⟩
            · rcases List.mem_cons.mp hmem2 with rfl | hmem3
              · exact ⟨rfl, rfl⟩
              · simp at hmem3
          · simp at hmem
        · simp at hmem

/-- Helper: a permutation of a two-element list of distinct elements is one
of its two arrangements. -/
theorem perm_pair_cases {A : Type} (l : List A) (a b : A)
    (h : l.Perm [a, b]) (hab : a ≠ b) : l = [a, b] ∨ l = [b, a] := by
  rcases l with _ | ⟨x, _ | ⟨y, _ | ⟨z, rest⟩⟩⟩
  · have hlen := h.length_eq
    simp at hlen
  · have hlen := h.length_eq
    simp at hlen
  · have hx : x ∈ [a, b] := h.subset (List.mem_cons_self _ _)
    have ha : a ∈ [x, y] := h.symm.subset (List.mem_cons_self _ _)
    have hb : b ∈ [x, y] := h.symm.subset
      (List.mem_cons_of_mem _ (List.mem_cons_self _ _))
    rcases List.mem_cons.mp hx with h1 | h1
    · subst h1
      left
      rcases List.mem_cons.mp hb with h2 | h2
      · exact absurd h2.symm hab
      · have hyb : b = y := by simpa using h2
        rw [hyb]
    · have hxb : x = b := by simpa using h1
      subst hxb
      right
      rcases List.mem_cons.mp ha with h2 | h2
      · exact absurd h2 hab
      · have hya : a = y := by simpa using h2
        rw [hya]
  · have hlen := h.length_eq
    simp at hlen

/-- C7 (amended): with the desired-table list in dependency-sorted order
(as `metadata.sorted_tables` supplies it) and duplicate-free desired table
keys, the `add_table` entries of a diff pass appear in topological order
over the foreign-key graph (parents before children), under every
admissible enumeration of the removed-key set; the `remove_table` entries
are the same tables under every admissible enumeration — a permutation of
those the element-order enumeration emits — but carry no
reverse-topological (nor any other dependency-aware) ordering guarantee,
as the counterexample shows. -/
theorem add_tables_topological_removals_set_order
    (setEnum : List TableKey → List TableKey)
    (henum : ∀ l, (setEnum l).Perm l)
    (connTables metaTables : List Table) (filters : List ObjFilter)
    (uniquesSupported : Bool)
    (hmeta : (metaTables.map tableKey).Nodup)
    (htopo : topoOrdered metaTables) :
    topoOrdered (addedTables
      (produceNetChangesEnum setEnum connTables metaTables filters true
        uniquesSupported))
    ∧ (removedTables
      (produceNetChangesEnum setEnum connTables metaTables filters true
        uniquesSupported)).Perm
      (removedTables
        (produceNetChangesEnum (fun l => l) connTables metaTables filters
          true uniquesSupported)) := by
  unfold produceNetChangesEnum compareTablesEnum addedTables removedTables
  dsimp only
  rw [List.filterMap_append, List.filterMap_append, List.filterMap_append,
    List.filterMap_append, List.filterMap_append, List.filterMap_append]
  have hPer : ∀ pr : Change → Option Table,
      (∀ c ∈ (List.insertionSort (fun a b => keyLeB a b = true)
          ((metaTables.map tableKey).filter
            (fun k => decide (k ∈ (connTables.map tableKey).filter
              (fun k => decide (k.2 ≠ "alembic_version")))))).flatMap
          (fun k =>
            match findTable metaTables k, findTable connTables k with
            | some metaTable, some connTable =>
              if runFilters filters ⟨k.2, "table", false, true⟩ then
                compareColumns k.1 k.2 filters connTable metaTable
                  ++ (compareUniques k.2 connTable metaTable
                      uniquesSupported).1
                  ++ compareIndexes k.2 connTable metaTable
                    (compareUniques k.2 connTable metaTable
                      uniquesSupported).2
              else []
            | _, _ => []), pr c = none) →
      (((List.insertionSort (fun a b => keyLeB a b = true)
          ((metaTables.map tableKey).filter
            (fun k => decide (k ∈ (connTables.map tableKey).filter
              (fun k => decide (k.2 ≠ "alembic_version")))))).flatMap
          (fun k =>
            match findTable metaTables k, findTable connTables k with
            | some metaTable, some connTable =>
              if runFilters filters ⟨k.2, "table", false, true⟩ then
                compareColumns k.1 k.2 filters connTable metaTable
                  ++ (compareUniques k.2 connTable metaTable
                      uniquesSupported).1
                  ++ compareIndexes k.2 connTable metaTable
                    (compareUniques k.2 connTable metaTable
                      uniquesSupported).2
              else []
            | _, _ => [])).filterMap pr) = [] :=
    fun pr h => List.filterMap_eq_nil_iff.mpr h
  have hPerMem : ∀ c ∈ (List.insertionSort (fun a b => keyLeB a b = true)
      ((metaTables.map tableKey).filter
        (fun k => decide (k ∈ (connTables.map tableKey).filter
          (fun k => decide (k.2 ≠ "alembic_version")))))).flatMap
      (fun k =>
        match findTable metaTables k, findTable connTables k with
        | some metaTable, some connTable =>
          if runFilters filters ⟨k.2, "table", false, true⟩ then
            compareColumns k.1 k.2 filters connTable metaTable
              ++ (compareUniques k.2 connTable metaTable uniquesSupported).1
              ++ compareIndexes k.2 connTable metaTable
                (compareUniques k.2 connTable metaTable uniquesSupported).2
          else []
        | _, _ => []), toAdded c = none ∧ toRemoved c = none := by
    intro c hc
    obtain ⟨k, hk, hmem⟩ := List.mem_flatMap.mp hc
    cases hm : findTable metaTables k with
    | none => rw [hm] at hmem; simp at hmem
    | some mt =>
      cases hc2 : findTable connTables k with
      | none => rw [hm, hc2] at hmem; simp at hmem
      | some ct =>
        rw [hm, hc2] at hmem
        dsimp only at hmem
        split at hmem
        · rcases List.mem_append.mp hmem with h4 | h4
          · rcases List.mem_append.mp h4 with h5 | h5
            · exact compareColumns_no_table_entries _ _ _ _ _ c h5
            · exact compareUniques_no_table_entries _ _ _ _ c h5
          · exact compareIndexes_no_table_entries _ _ _ _ c h4
        · simp at hmem
  have hAddsMem : ∀ c ∈ (((metaTables.map tableKey).filter
      (fun k => decide (k ∉ (connTables.map tableKey).filter
        (fun k => decide (k.2 ≠ "alembic_version"))))).filterMap
      (fun k => (findTable metaTables k).bind (fun t =>
        if runFilters filters ⟨k.2, "table", false, false⟩ then
          some (Change.addTable t)
        else none))), toRemoved c = none := by
    intro c hc
    obtain ⟨k, hk, hfk⟩ := List.mem_filterMap.mp hc
    cases hft : findTable metaTables k with
    | none => rw [hft] at hfk; exact Option.noConfusion hfk
    | some t =>
      rw [hft] at hfk
      try dsimp only at hfk
      split at hfk
      · have hcc := Option.some.inj hfk
        subst hcc
        rfl
      · exact Option.noConfusion hfk
  have hRemMem : ∀ e : List TableKey → List TableKey,
      ∀ c ∈ ((e (((connTables.map tableKey).filter
      (fun k => decide (k.2 ≠ "alembic_version"))).filter
      (fun k => decide (k ∉ metaTables.map tableKey)))).filterMap
      (fun k => (findTable connTables k).bind (fun t =>
        if true = true then
          if runFilters filters ⟨k.2, "table", true, false⟩ then
            some (Change.removeTable t)
          else none
        else none))), toAdded c = none := by
    intro e c hc
    obtain ⟨k, hk, hfk⟩ := List.mem_filterMap.mp hc
    cases hft : findTable connTables k with
    | none => rw [hft] at hfk; exact Option.noConfusion hfk
    | some t =>
      rw [hft] at hfk
      try dsimp only at hfk
      repeat' split at hfk
      · have hcc := Option.some.inj hfk
        subst hcc
        rfl
      all_goals exact Option.noConfusion hfk
  constructor
  · rw [hPer toAdded (fun c hc => (hPerMem c hc).1), List.append_nil]
    rw [List.filterMap_eq_nil_iff.mpr (hRemMem setEnum), List.append_nil]
    rw [List.filterMap_filterMap]
    have hcongr : ∀ k ∈ ((metaTables.map tableKey).filter
        (fun k => decide (k ∉ (connTables.map tableKey).filter
          (fun k => decide (k.2 ≠ "alembic_version"))))),
        ((findTable metaTables k).bind (fun t =>
          if runFilters filters ⟨k.2, "table", false, false⟩ then
            some (Change.addTable t)
          else none)).bind toAdded
        = (findTable metaTables k).bind (fun t =>
          if runFilters filters ⟨k.2, "table", false, false⟩ then some t
          else none) := by
      intro k hk
      cases findTable metaTables k with
      | none => rfl
      | some t =>
        try dsimp only
        split <;> rfl
    rw [List.filterMap_congr hcongr]
    exact List.Pairwise.sublist
      (filterMap_find_gate_sublist metaTables hmeta _ _
        (fun k t t2 h => by
          split at h
          · exact (Option.some.inj h).symm
          · exact Option.noConfusion h)
        metaTables (List.Sublist.refl _)) htopo
  · rw [hPer toRemoved (fun c hc => (hPerMem c hc).2)]
    simp only [List.append_nil]
    rw [List.filterMap_eq_nil_iff.mpr hAddsMem]
    simp only [List.nil_append]
    rw [List.filterMap_filterMap, List.filterMap_filterMap]
    exact List.Perm.filterMap _ (henum _)

/-- C7 counterexample: the removed-key set is built from introspected
`(schema, name)` pairs before any removed table is reflected, so its
iteration order cannot consult foreign keys, and one program run iterates
a given key set in one order.  The two live schemas over tables `a` and
`b` below — one where `b` references `a`, one where `a` references `b` —
build the same removed-key set; no enumeration of that set (each key once,
in either order) yields reverse-topological `remove_table` entries on both
schemas, so whatever order the interpreter produces, one of the two
schemas has a parent removed before its referencing child, refuting the
claimed reverse topological order. -/
theorem remove_tables_not_reverse_topological :
    ¬ ∃ setEnum : List TableKey → List TableKey,
      (setEnum [((none : Option String), "a"), (none, "b")]).Perm
          [((none : Option String), "a"), (none, "b")]
      ∧ revTopoOrdered (removedTables
          (produceNetChangesEnum setEnum [tblA, tblBrefA] [] [] true true))
      ∧ revTopoOrdered (removedTables
          (produceNetChangesEnum setEnum [tblArefB, tblB] [] [] true true)) := by
  rintro ⟨enum, hperm, h1, h2⟩
  rcases perm_pair_cases _ _ _ hperm (by decide) with hL | hL
  · have hrem : removedTables
        (produceNetChangesEnum enum [tblA, tblBrefA] [] [] true true)
        = [tblA, tblBrefA] := by
      unfold produceNetChangesEnum compareTablesEnum
      dsimp only
      rw [(by decide :
        (List.filter (fun k => decide (k ∉ List.map tableKey ([] : List Table)))
          (List.filter (fun k => decide (k.2 ≠ "alembic_version"))
            (List.map tableKey [tblA, tblBrefA])))
        = [((none : Option String), "a"), (none, "b")])]
      rw [hL]
      decide
    rw [hrem] at h1
    unfold revTopoOrdered at h1
    obtain ⟨hx, _⟩ := List.pairwise_cons.mp h1
    exact hx tblBrefA (List.mem_cons_self _ _) (by decide)
  · have hrem : removedTables
        (produceNetChangesEnum enum [tblArefB, tblB] [] [] true true)
        = [tblB, tblArefB] := by
      unfold produceNetChangesEnum compareTablesEnum
      dsimp only
      rw [(by decide :
        (List.filter (fun k => decide (k ∉ List.map tableKey ([] : List Table)))
          (List.filter (fun k => decide (k.2 ≠ "alembic_version"))
            (List.map tableKey [tblArefB, tblB])))
        = [((none : Option String), "a"), (none, "b")])]
      rw [hL]
      decide
    rw [hrem] at h2
    unfold revTopoOrdered at h2
    obtain ⟨hx, _⟩ := List.pairwise_cons.mp h2
    exact hx tblArefB (List.mem_cons_self _ _) (by decide)

/-- Witness for the amended table-ordering theorem: the reversing
enumeration on a concrete pair of snapshots. -/
theorem add_tables_topological_removals_set_order_witness :
    topoOrdered (addedTables
      (produceNetChangesEnum List.reverse [liveExtra, liveOrder]
        [parentT, childT] [] true true))
    ∧ (removedTables
      (produceNetChangesEnum List.reverse [liveExtra, liveOrder]
        [parentT, childT] [] true true)).Perm
      (removedTables
        (produceNetChangesEnum (fun l => l) [liveExtra, liveOrder]
          [parentT, childT] [] true true)) :=
  add_tables_topological_removals_set_order List.reverse
    (fun l => List.reverse_perm l) [liveExtra, liveOrder]
    [parentT, childT] [] true (by decide)
    (by simp [topoOrdered, parentT, childT])
